import Mathlib

/-!
Verification development for the collection assembly and context namespacing
engine of `src/index.js`.  The JavaScript source is shallowly embedded:
objects become association lists with first-match lookup, Node path strings
become slash-separated character lists, and the regular expressions used by
the source are modelled as explicit scanners over character lists.  All
definitions are executable so concrete runs of the embedded program can be
evaluated inside proofs.
-/

namespace FabAssemble

/-- Characters treated as whitespace by the JavaScript regex class used in
`src/index.js` (the common members of the ECMAScript class). -/
def isWsChar (c : Char) : Bool :=
  c = ' ' ∨ c = '\t' ∨ c = '\n' ∨ c = '\r' ∨ c = '\x0b' ∨ c = '\x0c'

/-! ## JavaScript object model

A JavaScript object is modelled as an association list with first-match
lookup; `lodash` `_.assign` copies the own keys of later sources over earlier
ones, which under first-match lookup is list prepending of the later source. -/

/-- Association-list model of a JavaScript object with values in `α`. -/
abbrev Obj (α : Type) : Type := List (String × α)

/-- Property read: the first binding of the key wins. -/
def objGet {α : Type} (o : Obj α) (k : String) : Option α :=
  (o.find? (fun p => p.1 = k)).map (fun p => p.2)

/-- Model of `_.assign(dst, src)`: own keys of `src` overwrite `dst`.
Under first-match lookup this is `src` prepended to `dst`. -/
def assignObj {α : Type} (dst src : Obj α) : Obj α := src ++ dst

/-- Model of variadic `_.assign({}, o₁, …, oₙ)`: fold the sources left to
right onto a fresh object, exactly as in the source. -/
def assignList {α : Type} (os : List (Obj α)) : Obj α :=
  os.foldl (fun acc o => assignObj acc o) []

/-- Property write `o[k] = v`: replaces the first binding in place if the key
exists, otherwise appends the new binding (JavaScript insertion order). -/
def objSet {α : Type} : Obj α → String → α → Obj α
  | [], k, v => [(k, v)]
  | (k', v') :: t, k, v =>
      if k' = k then (k, v) :: t else (k', v') :: objSet t k v

theorem objGet_append {α : Type} (a b : Obj α) (k : String) :
    objGet (a ++ b) k = (objGet a k).orElse (fun _ => objGet b k) := by
  unfold objGet
  rw [List.find?_append]
  cases a.find? (fun p => p.1 = k) <;> simp [Option.orElse]

/-! ## Context builder (`buildContext`, src/index.js lines 242-256)

The three collection trees are passed as opaque values of type `α`; the merge
logic of `_.assign` is independent of the value type. -/

/-- Embedding of `buildContext(data, hash)`.  The assembly state
(`assembly.data`, `assembly.materialData`, `options.buildData`), the three
configured key names and the three collection trees are explicit arguments,
since the source reads them from module-level state. -/
def buildContext {α : Type} (mKey vKey dKey : String) (mats views docs : α)
    (assemblyData materialData buildData : Obj α)
    (data hash : Obj α) : Obj α :=
  assignList [data, assemblyData, materialData, buildData,
    [(mKey, mats)], [(vKey, views)], [(dKey, docs)], hash]

/-! ## Error handler (`handleError`, src/index.js lines 204-234) -/

/-- The default fields merged under the caught error object. -/
def errorDefaults : Obj String :=
  [("name", "Error"), ("reason", ""), ("message", "An error occurred")]

/-- Observable effects of one `handleError` run. -/
structure ErrorEffects where
  onErrorCalledWith : Option (Obj String)
  loggedToConsole : Bool
  printedFatal : Bool
  exited : Bool
deriving Repr, DecidableEq

/-- Embedding of `handleError(e)`.  `hasOnError` models
`_.isFunction(options.onError)` and `logErrors` models `options.logErrors`;
the function mirrors the source: `exit` starts `true`, the callback and the
logging branch each clear it, and the final branch prints and exits only when
it is still set. -/
def handleError (hasOnError logErrors : Bool) (e : Obj String) : ErrorEffects :=
  let normalized := assignObj errorDefaults e
  let exit1 := if hasOnError then false else true
  let exit2 := if logErrors then false else exit1
  { onErrorCalledWith := if hasOnError then some normalized else none
    loggedToConsole := logErrors
    printedFatal := exit2
    exited := exit2 }

/-! ## Node path model

The source manipulates slash-separated relative paths through the Node `path`
module.  The subset used (splitting on the separator, `basename`, `dirname`,
`join`, `normalize` on slash paths, `extname`) is embedded over character
lists so every operation evaluates by kernel reduction. -/

/-- Split a character list on the `/` separator, like
`String.prototype.split(path.sep)`. -/
def splitSlash : List Char → List (List Char)
  | [] => [[]]
  | c :: t =>
      match splitSlash t with
      | [] => [[]]
      | s :: rest => if c = '/' then [] :: s :: rest else (c :: s) :: rest

/-- Join path segments back with `/`. -/
def joinSegs : List (List Char) → List Char
  | [] => []
  | [s] => s
  | s :: rest => s ++ '/' :: joinSegs rest

/-- Last element of a segment list, like `Array.prototype.pop()` on the
result of a split (defaulting to the empty segment). -/
def lastSegOf (segs : List (List Char)) : List Char :=
  (segs.getLast?).getD []

/-- Element at index `length - 2`, like `Array.prototype.slice(-2, -1)[0]`
(which is `undefined`, here `none`, on shorter arrays). -/
def secondLastOf (segs : List (List Char)) : Option (List Char) :=
  (segs.reverse.drop 1).head?

/-- Resolve `.` and `..` segments and drop empty segments, the core of
`path.normalize` on a relative slash path. -/
def normalizeSegs (segs : List (List Char)) : List (List Char) :=
  segs.foldl
    (fun acc seg =>
      if seg = [] ∨ seg = ['.'] then acc
      else if seg = ['.', '.'] then
        (if acc = [] ∨ acc.getLast? = some ['.', '.'] then acc ++ [seg]
         else acc.dropLast)
      else acc ++ [seg])
    []

/-- Embedding of `path.normalize` for slash paths: collapses duplicate
separators and dot segments, keeps one trailing separator (as Node does),
and returns a dot for an empty relative result. -/
def pathNormL (l : List Char) : List Char :=
  let body := joinSegs (normalizeSegs (splitSlash l))
  let isAbs : Bool := match l with | '/' :: _ => true | _ => false
  let hasTrail : Bool := match l.getLast? with | some '/' => true | _ => false
  let core := if isAbs then '/' :: body else if body = [] then ['.'] else body
  if hasTrail ∧ body ≠ [] then core ++ ['/'] else core

/-- Embedding of `path.join`: drop empty parts, join with the separator and
normalize, as Node does. -/
def pathJoinL (parts : List (List Char)) : List Char :=
  pathNormL (joinSegs (parts.filter (fun p => p ≠ [])))

/-- Embedding of `path.basename` (without an extension argument) for the
file paths the source feeds it: the last slash segment. -/
def basenameL (l : List Char) : List Char :=
  lastSegOf (splitSlash l)

/-- Embedding of `path.dirname` for relative slash paths: everything before
the last segment, or a dot when there is no separator. -/
def dirnameL (l : List Char) : List Char :=
  let segs := splitSlash l
  if segs.length ≤ 1 then ['.'] else joinSegs segs.dropLast

/-- Drop the `path.extname` suffix from a basename, that is the part from
the last dot on, provided that dot is not the first character. -/
def dropExt (bn : List Char) : List Char :=
  let r := bn.reverse
  match r.findIdx? (fun c => c = '.') with
  | some i => if i + 1 < r.length then (r.drop (i + 1)).reverse else bn
  | none => bn

/-- Leading characters stripped by `getName` when numbers are not preserved:
the regex class `[0-9|.\-]` (digits, pipe, dot, dash). -/
def isNameStripChar (c : Char) : Bool :=
  c.isDigit ∨ c = '|' ∨ c = '.' ∨ c = '-'

/-- Embedding of `getName(filePath, preserveNumbers)` (src/index.js lines
180-185): basename minus extension, whitespace replaced with dashes, and the
leading numeric-prefix run stripped unless numbers are preserved. -/
def getNameStr (filePath : String) (preserveNumbers : Bool) : String :=
  let nm := (dropExt (basenameL filePath.toList)).map
    (fun c => if isWsChar c then '-' else c)
  ⟨if preserveNumbers then nm else nm.dropWhile isNameStripChar⟩

/-! ## Title casing (`toTitleCase`, src/index.js lines 264-268)

The regex `/\w\S*/g` starts a word at a word character and consumes the rest
of the non-space run; the replacement upper-cases the first character and
lower-cases the remainder. -/

/-- Word characters of the ECMAScript `\w` class. -/
def isWordChar (c : Char) : Bool := c.isAlphanum ∨ c = '_'

mutual

/-- Scanner for the `/\w\S*/g` pass of `toTitleCase`. -/
def titleScan : List Char → List Char
  | [] => []
  | c :: t =>
      if isWsChar c then c :: titleScan t
      else if isWordChar c then c.toUpper :: titleLower t
      else c :: titleScan t

/-- Continuation of `titleScan` inside a matched word: lower-case the rest
of the non-space run. -/
def titleLower : List Char → List Char
  | [] => []
  | c :: t =>
      if isWsChar c then c :: titleScan t
      else c.toLower :: titleLower t

end

/-- Embedding of `toTitleCase(str)`: dashes and underscores become spaces,
then each non-space run starting at a word character is capitalized. -/
def toTitleCase (s : String) : String :=
  ⟨titleScan (s.toList.map (fun c => if c = '-' ∨ c = '_' then ' ' else c))⟩

/-! ## View collection classification (src/index.js lines 502-503, 632-633)

Both `parseViews` and `assemble` compute the name of the immediate parent
directory of a view file and treat the view as collection-less exactly when
that name equals the configured views key. -/

/-- Name of the immediate parent directory of a file:
`path.normalize(path.dirname(file)).split(path.sep).pop()`. -/
def parentDirName (file : String) : String :=
  ⟨lastSegOf (splitSlash (pathNormL (dirnameL file.toList)))⟩

/-- Collection name of a view file: the parent directory name, or the empty
string when that name equals the configured views key. -/
def collectionOf (viewsKey file : String) : String :=
  if parentDirName file = viewsKey then "" else parentDirName file

/-- Embedding of the `baseurl` injection in `assemble` (lines 640-642): when
the view has a collection, `pageMatter.data.baseurl = '..'` runs before the
context is built. -/
def injectBaseurl (viewsKey file : String) (data : Obj String) : Obj String :=
  if collectionOf viewsKey file = "" then data else objSet data "baseurl" ".."

/-! ## Output path resolution (`assemble`, src/index.js lines 629-659) -/

/-- Characters matched by the extension regex class `[0-9a-z]`. -/
def isExtChar (c : Char) : Bool :=
  ('0' ≤ c ∧ c ≤ '9') ∨ ('a' ≤ c ∧ c ≤ 'z')

/-- Embedding of `filePath.replace(/\.[0-9a-z]+$/, options.extension)`: when
the path ends in a dot followed by a nonempty run of lowercase alphanumerics,
that suffix is replaced by the configured extension. -/
def replaceExt (p ext : String) : String :=
  let r := p.toList.reverse
  let run := r.takeWhile isExtChar
  if run ≠ [] ∧ (r.drop run.length).head? = some '.' then
    ⟨(r.drop (run.length + 1)).reverse ++ ext.toList⟩
  else p

/-- Embedding of the output path computation for one view in `assemble`:
default `join(dest, collection, basename)`, fully replaced by a front-matter
`dest` when present, overridden again by a destination-map entry for the
collection, and finally the extension rewrite. -/
def resolveOutPath (dest viewsKey ext : String) (destMap : Obj String)
    (fmDest : Option String) (file : String) : String :=
  let collection := collectionOf viewsKey file
  let fp0 : String :=
    ⟨pathJoinL [dest.toList, collection.toList, basenameL file.toList]⟩
  let fp1 : String :=
    match fmDest with
    | some d => ⟨pathNormL d.toList⟩
    | none => fp0
  let fp2 : String :=
    match objGet destMap collection with
    | some m => ⟨pathNormL (joinSegs [m.toList, basenameL file.toList])⟩
    | none => fp1
  replaceExt fp2 ext

/-! ## Sub-collection classification (`parseMaterials`, src/index.js lines
294-311 and 333-341)

The directory glob results (`globby.sync(dirsGlob)`) are an input here: glob
matching is an external collaborator.  Each matched directory path ends in a
separator, and the source keeps its last real segment name. -/

/-- Name under which a matched directory path is recorded in `dirs`:
`path.normalize(dir).split(path.sep).slice(-2, -1)[0]`. -/
def dirSlotName (d : String) : Option String :=
  (secondLastOf (splitSlash (pathNormL d.toList))).map (fun l => ⟨l⟩)

/-- The `dirs` array of known sub-collection directory names, computed once
from the full matched-directory list. -/
def subDirNames (matchedDirs : List String) : List String :=
  matchedDirs.filterMap dirSlotName

/-- Raw name of the grandparent directory of a material file, as used by the
population loop (line 338):
`path.normalize(path.dirname(file)).split(path.sep).slice(-2, -1)[0]`. -/
def fileParentName (file : String) : Option String :=
  (secondLastOf (splitSlash (pathNormL (dirnameL file.toList)))).map (fun l => ⟨l⟩)

/-- Grandparent name as used by the stub loop (line 309): the same segment
additionally passed through `getName(·, true)` — basename minus extension,
whitespace replaced with dashes, numbers preserved.  On a missing segment
the source would throw inside `getName`; the model yields no name (no claim
concerns that case). -/
def stubParentName (file : String) : Option String :=
  (fileParentName file).map (fun p => getNameStr p true)

/-- Embedding of the population-loop sub-collection test (lines 338-339):
the raw grandparent name is looked up in the precomputed `dirs` list
(`dirs.indexOf(parent) > -1`); a missing grandparent (`undefined`) is never
found. -/
def isSubCollection (dirs : List String) (file : String) : Bool :=
  match fileParentName file with
  | some p => dirs.contains p
  | none => false

/-- Embedding of the stub-loop sub-collection test (lines 309-311): the
`getName`-normalized grandparent name is looked up in the same `dirs`
list. -/
def isSubCollectionStub (dirs : List String) (file : String) : Bool :=
  match stubParentName file with
  | some p => dirs.contains p
  | none => false

/-- Embedding of the material id computation (line 340): for a sub-collection
file the stripped collection name joined to the stripped basename by a dot,
otherwise just the stripped basename. -/
def materialId (file : String) (isSub : Bool) : String :=
  let collection := getNameStr (parentDirName file) true
  if isSub then getNameStr collection false ++ "." ++ getNameStr file false
  else getNameStr file false

/-! ## View parsing (`parseViews`, src/index.js lines 489-527) -/

/-- Stored metadata of one view. -/
structure ViewItem where
  name : String
  data : Obj String
deriving Repr, DecidableEq

/-- One view collection: display name plus an item mapping. -/
structure ViewColl where
  name : String
  items : Obj ViewItem
deriving Repr, DecidableEq

/-- Processing of a single file inside `parseViews`: files whose parent
directory name equals the views key are skipped; others are stored in their
collection (created on demand) under their number-preserving name. -/
def parseViewsStep (viewsKey : String) (tree : Obj ViewColl)
    (file : String) (fileData : Obj String) : Obj ViewColl :=
  let id := getNameStr file true
  let collection := collectionOf viewsKey file
  if collection = "" then tree
  else
    let coll := (objGet tree collection).getD
      { name := toTitleCase collection, items := [] }
    let coll' := { coll with
      items := objSet coll.items id { name := toTitleCase id, data := fileData } }
    objSet tree collection coll'

/-- Embedding of `parseViews`: fold the step over the globbed view files,
starting from the freshly reset empty tree.  Each file is paired with its
front-matter data (front-matter extraction is external), already minus
`notes`. -/
def parseViews (viewsKey : String) (files : List (String × Obj String)) :
    Obj ViewColl :=
  files.foldl (fun tree fp => parseViewsStep viewsKey tree fp.1 fp.2) []

/-- Output paths written by `assemble`: every globbed view file, with no
exception for collection-less views, produces exactly one write at its
resolved output path. -/
def assembleWrites (dest viewsKey ext : String) (destMap : Obj String)
    (files : List (String × Obj String)) : List String :=
  files.map (fun fp =>
    resolveOutPath dest viewsKey ext destMap (objGet fp.2 "dest") fp.1)

/-! ## The `material` helper (src/index.js lines 568-589)

The helper strips numeric ordering prefixes from the reference name with two
applications of `name.replace(/(\d+[\-\.])+/, '')` (first match only), looks
the result up in the engine partial registry, compiles the stored value when
it is not already a function, and renders it against a context built by
`buildContext`. -/

/-- Consume digit characters, returning how many were taken and the rest. -/
def dropDigits : List Char → Nat × List Char
  | [] => (0, [])
  | c :: t =>
      if c.isDigit then
        let r := dropDigits t
        (r.1 + 1, r.2)
      else (0, c :: t)

/-- Greedy match of `(\d+[-.])+` anchored at the head of the list: one or
more groups of digits followed by a dash or dot.  Returns the rest after the
match when the head matches.  Fuel bounds the group count. -/
def eatNumGroups : Nat → List Char → Option (List Char)
  | 0, _ => none
  | fuel + 1, s =>
      let d := dropDigits s
      if d.1 = 0 then none
      else
        match d.2 with
        | b :: r =>
            if b = '-' ∨ b = '.' then
              match eatNumGroups fuel r with
              | some r2 => some r2
              | none => some r
            else none
        | [] => none

/-- Left-to-right scan for the first `(\d+[-.])+` match; on a match the
matched run is removed and the remainder is kept verbatim, since the
`replace` call is not global. -/
def stripNumScan : Nat → List Char → List Char
  | 0, s => s
  | fuel + 1, s =>
      match s with
      | [] => []
      | c :: t =>
          match eatNumGroups (fuel + 1) s with
          | some r => r
          | none => c :: stripNumScan fuel t

/-- Embedding of one `name.replace(/(\d+[\-\.])+/, '')`. -/
def stripNumsOnce (s : String) : String :=
  ⟨stripNumScan s.toList.length s.toList⟩

/-- The lookup key of the `material` helper: the numeric-prefix strip applied
twice (lines 573). -/
def helperKeyOf (name : String) : String :=
  stripNumsOnce (stripNumsOnce name)

/-- A value stored in the engine partial registry: `registerPartial` stores
source strings, and a compiled template is a function.  A compiled function
is tagged with the source it was compiled from. -/
inductive PartialVal where
  | str (s : String)
  | fn (s : String)
deriving Repr, DecidableEq

/-- Result of one helper call: the rendering of a template body, or the
exception thrown by `Handlebars.compile` when handed `undefined`. -/
inductive HelperOutcome where
  | rendered (src : String)
  | compileError
deriving Repr, DecidableEq

/-- Observable record of one `material` helper invocation. -/
structure HelperRun where
  key : String
  compiled : Bool
  outcome : HelperOutcome
  ctxUsed : Obj String
  partialsAfter : Obj PartialVal
deriving Repr, DecidableEq

/-- The function-valued members of `Object.prototype`.  `Handlebars.partials`
is a plain object, so `Handlebars.partials[key]` walks the prototype chain:
for these names an unregistered lookup yields an inherited function rather
than `undefined`. -/
def protoFnKeys : List String :=
  ["constructor", "hasOwnProperty", "isPrototypeOf", "propertyIsEnumerable",
    "toLocaleString", "toString", "valueOf"]

/-- Lookup in `Handlebars.partials`: own registered entries first, then the
inherited function members of `Object.prototype` (tagged with their origin).
The `__proto__` accessor yields a non-function object whose compilation
throws, observably the same as a missing key, so it is not singled out. -/
def partialsLookup (partials : Obj PartialVal) (key : String) :
    Option PartialVal :=
  match objGet partials key with
  | some v => some v
  | none =>
      if protoFnKeys.contains key then
        some (PartialVal.fn ("[Object.prototype." ++ key ++ "]"))
      else none

/-- Embedding of the `material` helper body: strip the name twice, look the
key up in the partial registry (a plain-object lookup that also sees
function members inherited from `Object.prototype`), compile unless the
found value is already a function (a missing key yields `undefined`, whose
compilation throws), render against `buildContext(context, opts.hash)`, and
leave the registry untouched — the source never writes the compiled form
back. -/
def materialHelper (mKey vKey dKey : String) (mats views docs : String)
    (assemblyData materialData buildData : Obj String)
    (partials : Obj PartialVal) (name : String)
    (context hash : Obj String) : HelperRun :=
  let key := helperKeyOf name
  let ctx := buildContext mKey vKey dKey mats views docs
    assemblyData materialData buildData context hash
  match partialsLookup partials key with
  | some (PartialVal.fn s) =>
      { key := key, compiled := false, outcome := HelperOutcome.rendered s
        ctxUsed := ctx, partialsAfter := partials }
  | some (PartialVal.str s) =>
      { key := key, compiled := true, outcome := HelperOutcome.rendered s
        ctxUsed := ctx, partialsAfter := partials }
  | none =>
      { key := key, compiled := true, outcome := HelperOutcome.compileError
        ctxUsed := ctx, partialsAfter := partials }

/-! ## Collection sorting (src/index.js lines 390-394)

The source delegates to the `sort-object` dependency, whose code is not part
of this repository checkout. -/

/-- Modelled from the spec: the ordering used by the absent `sort-object`
dependency when invoked as `sortObj(obj, 'order')` — items carrying an
explicit `order` attribute come first in ascending `order`, items without
one come after all ordered items and compare alphabetically by key. -/
def itemLEb (x y : String × Option Nat) : Bool :=
  match x.2, y.2 with
  | some a, some b => a ≤ b
  | some _, none => true
  | none, some _ => false
  | none, none => x.1 ≤ y.1

/-- Propositional form of `itemLEb`. -/
def itemLE (x y : String × Option Nat) : Prop := itemLEb x y = true

instance : DecidableRel itemLE := fun x y => by
  unfold itemLE; exact inferInstance

instance : IsTotal (String × Option Nat) itemLE := by
  constructor
  intro x y
  unfold itemLE itemLEb
  rcases x with ⟨kx, ox⟩
  rcases y with ⟨ky, oy⟩
  cases ox <;> cases oy <;> simp
  · exact le_total kx.data ky.data
  · exact Nat.le_total _ _

instance : IsTrans (String × Option Nat) itemLE := by
  constructor
  intro x y z
  unfold itemLE itemLEb
  rcases x with ⟨kx, ox⟩
  rcases y with ⟨ky, oy⟩
  rcases z with ⟨kz, oz⟩
  cases ox <;> cases oy <;> cases oz <;> simp
  · exact fun h1 h2 => le_trans h1 h2
  · exact fun h1 h2 => Nat.le_trans h1 h2

/-- Comparator of `itemLE` lifted to a mapping whose values of type `α`
carry their optional explicit order through `ord`. -/
def entryLE {α : Type} (ord : α → Option Nat) (x y : String × α) : Prop :=
  itemLE (x.1, ord x.2) (y.1, ord y.2)

instance {α : Type} (ord : α → Option Nat) : DecidableRel (entryLE ord) :=
  fun x y => by unfold entryLE itemLE; exact inferInstance

instance {α : Type} (ord : α → Option Nat) : IsTotal (String × α) (entryLE ord) :=
  ⟨fun x y => IsTotal.total (r := itemLE) (x.1, ord x.2) (y.1, ord y.2)⟩

instance {α : Type} (ord : α → Option Nat) : IsTrans (String × α) (entryLE ord) :=
  ⟨fun x y z hxy hyz =>
    IsTrans.trans (r := itemLE) (x.1, ord x.2) (y.1, ord y.2)
      (z.1, ord z.2) hxy hyz⟩

/-- Modelled from the spec: `sortObj(obj, 'order')` on a mapping with values
in `α`, as a stable sort by the lifted comparator. -/
def sortObjM {α : Type} (ord : α → Option Nat) (l : List (String × α)) :
    List (String × α) :=
  List.insertionSort (entryLE ord) l

/-- Modelled from the spec: one entry of a collection's items mapping, with
its optional explicit order attribute; a sub-collection entry additionally
carries its own nested items mapping (projected to keys and orders). -/
structure MatEntry where
  order : Option Nat
  subItems : Option (List (String × Option Nat))
deriving Repr, DecidableEq

/-- Modelled from the spec: one top-level collection, with its optional
explicit order attribute and its items mapping. -/
structure MatColl where
  order : Option Nat
  items : List (String × MatEntry)
deriving Repr, DecidableEq

/-- Embedding of the sorting step (lines 390-394): the top-level mapping is
sorted, then the loop over its collections sorts each collection's `items`
mapping; nothing descends into a sub-collection entry's own nested items. -/
def sortMaterials (m : List (String × MatColl)) : List (String × MatColl) :=
  (sortObjM MatColl.order m).map
    (fun kv => (kv.1, ⟨kv.2.order, sortObjM MatEntry.order kv.2.items⟩))

/-! ## Fragment namespacing (`parseMaterials`, src/index.js lines 373-384)

For each local front-matter key the source builds the regex
`(\{\{[#\/]?)(\s?KEY+?\s?)(\}\})` (the key text is spliced into the pattern,
so its final character receives the lazy `+?` quantifier) and rewrites every
match of it in the fragment body to
`p1 + nsid + '.' + p2.replace(/\s/g,'') + p3`, where `nsid` is the fragment
id with dots replaced by dashes.  The regex is modelled as an explicit
backtracking matcher over character lists, with the key split into its
initial part `kInit` and final character `c` and treated as literal
characters: this coincides with the source exactly for keys made of
characters with no special regex meaning (the `safeKeyB` domain of the
theorems below); a key containing metacharacters is interpreted as a pattern
by the source and is not modelled. -/

/-- Strip a literal character sequence from the head of a list. -/
def stripPref : List Char → List Char → Option (List Char)
  | [], s => some s
  | _ :: _, [] => none
  | p :: ps, x :: xs => if x = p then stripPref ps xs else none

/-- Match of the regex tail `\s?\}\}` (greedy optional whitespace, then the
closing braces), returning the consumed whitespace and the remainder. -/
def closingBraces : List Char → Option (List Char × List Char)
  | [] => none
  | x :: xs =>
      if isWsChar x then
        match xs with
        | '}' :: '}' :: rest => some ([x], rest)
        | _ => none
      else
        match x :: xs with
        | '}' :: '}' :: rest => some ([], rest)
        | _ => none

/-- Lazy match of `c+?` followed by `\s?\}\}`: the shortest nonempty run of
`c` after which the closing tail matches.  Returns the run, the consumed
whitespace and the remainder after the braces. -/
def lazyReps (c : Char) : List Char → Option (List Char × List Char × List Char)
  | [] => none
  | x :: xs =>
      if x = c then
        match closingBraces xs with
        | some (w, rest) => some ([c], w, rest)
        | none =>
            match lazyReps c xs with
            | some (reps, w, rest) => some (c :: reps, w, rest)
            | none => none
      else none

/-- Match of `KEY+?\s?\}\}` given the split key: the literal initial part,
then the lazy run of the final character, then the closing tail.  Returns
the captured characters (initial part plus run plus trailing whitespace) and
the remainder. -/
def matchCore (kInit : List Char) (c : Char) (s : List Char) :
    Option (List Char × List Char) :=
  match stripPref kInit s with
  | some s2 =>
      match lazyReps c s2 with
      | some (reps, w, rest) => some (kInit ++ reps ++ w, rest)
      | none => none
  | none => none

/-- Match of `\s?KEY+?\s?\}\}` with the greedy optional leading whitespace
tried first and backtracked on failure. -/
def matchMid (kInit : List Char) (c : Char) (s : List Char) :
    Option (List Char × List Char) :=
  match s with
  | [] => none
  | x :: xs =>
      if isWsChar x then
        match matchCore kInit c xs with
        | some (p2, rest) => some (x :: p2, rest)
        | none => matchCore kInit c s
      else matchCore kInit c s

/-- Match of the full placeholder regex at the head of the list: the two
opening braces, the greedy optional `[#\/]` (backtracked on failure), and the
middle.  Returns the first capture group, the second capture group and the
remainder after the closing braces. -/
def matchPlaceholder (kInit : List Char) (c : Char) :
    List Char → Option (List Char × List Char × List Char)
  | '{' :: '{' :: x :: s2 =>
      if x = '#' ∨ x = '/' then
        match matchMid kInit c s2 with
        | some (p2, rest) => some (['{', '{', x], p2, rest)
        | none =>
            match matchMid kInit c (x :: s2) with
            | some (p2, rest) => some (['{', '{'], p2, rest)
            | none => none
      else
        match matchMid kInit c (x :: s2) with
        | some (p2, rest) => some (['{', '{'], p2, rest)
        | none => none
  | _ => none

/-- Replacement text for one match: `p1 + nsid + '.' + p2.replace(/\s/g,'')
+ p3`. -/
def replText (nsid p1 p2 : List Char) : List Char :=
  p1 ++ nsid ++ '.' :: p2.filter (fun ch => !(isWsChar ch)) ++ ['}', '}']

/-- Global left-to-right replacement scan of the placeholder regex, with fuel
(one unit per consumed character suffices since every match is nonempty). -/
def rewriteScan (nsid kInit : List Char) (c : Char) :
    Nat → List Char → List Char
  | 0, s => s
  | fuel + 1, s =>
      match matchPlaceholder kInit c s with
      | some (p1, p2, rest) =>
          replText nsid p1 p2 ++ rewriteScan nsid kInit c fuel rest
      | none =>
          match s with
          | [] => []
          | ch :: t => ch :: rewriteScan nsid kInit c fuel t

/-- Embedding of one iteration of the `_.forEach(localData, ...)` loop: the
global regex replacement for a single local key over the fragment body.  An
empty key is returned unchanged (the source would build a regex that throws
on construction; no claim concerns that case). -/
def rewriteKey (nsid key body : String) : String :=
  match key.toList.reverse with
  | [] => body
  | c :: revInit =>
      ⟨rewriteScan nsid.toList revInit.reverse c body.toList.length body.toList⟩

/-- The namespaced id of a fragment: its id with dots replaced by dashes
(`id.replace(/\./g, '-')`). -/
def nsidOf (id : String) : String :=
  ⟨id.toList.map (fun ch => if ch = '.' then '-' else ch)⟩

/-- The full namespacing pass of `parseMaterials` over one fragment body:
the per-key rewrite folded over the local data keys in order. -/
def namespaceContent (id : String) (keys : List String) (body : String) :
    String :=
  keys.foldl (fun acc k => rewriteKey (nsidOf id) k acc) body

/-! ## Supporting lemmas -/

theorem objGet_cons {α : Type} (k0 : String) (v0 : α) (t : Obj α) (k : String) :
    objGet ((k0, v0) :: t) k = (objGet [(k0, v0)] k).orElse (fun _ => objGet t k) :=
  objGet_append [(k0, v0)] t k

theorem objGet_objSet_self {α : Type} (o : Obj α) (k : String) (v : α) :
    objGet (objSet o k v) k = some v := by
  induction o with
  | nil => simp [objSet, objGet]
  | cons h t ih =>
      rcases h with ⟨k', v'⟩
      by_cases hk : k' = k
      · subst hk; simp [objSet, objGet]
      · simp [objSet, hk, objGet] at ih ⊢
        simpa [objGet, hk] using ih

theorem objGet_objSet_ne {α : Type} (o : Obj α) (k k' : String) (v : α)
    (h : k' ≠ k) : objGet (objSet o k v) k' = objGet o k' := by
  have hks : k ≠ k' := fun hh => h hh.symm
  induction o with
  | nil => simp [objSet, objGet, List.find?, hks]
  | cons hd t ih =>
      rcases hd with ⟨k0, v0⟩
      by_cases hk : k0 = k
      · subst hk
        simp [objSet, objGet, List.find?, hks]
      · simp only [objSet, if_neg hk]
        by_cases hck : k0 = k'
        · subst hck; simp [objGet, List.find?]
        · simp only [objGet, List.find?] at ih ⊢
          simp [hck, ih]

/-! ## Claim theorems -/

/-- C2: the rendering context is a shallow, single-level key merge of page
data, global data files, namespaced fragment data, build-time data, the three
collection trees under their configured keys, and the extra hash arguments,
with later sources overriding earlier ones on every top-level key; in
particular with global data title A, build data title B and page title C, the
resulting title is B. -/
theorem buildContext_precedence :
    (∀ (α : Type) (mKey vKey dKey : String) (mats views docs : α)
        (assemblyData materialData buildData data hash : Obj α) (k : String),
      objGet (buildContext mKey vKey dKey mats views docs
          assemblyData materialData buildData data hash) k
        = (objGet hash k).orElse (fun _ =>
          (objGet [(dKey, docs)] k).orElse (fun _ =>
          (objGet [(vKey, views)] k).orElse (fun _ =>
          (objGet [(mKey, mats)] k).orElse (fun _ =>
          (objGet buildData k).orElse (fun _ =>
          (objGet materialData k).orElse (fun _ =>
          (objGet assemblyData k).orElse (fun _ =>
          objGet data k)))))))) ∧
    objGet (buildContext "materials" "views" "docs" "MT" "VT" "DT"
      [("title", "A")] [] [("title", "B")] [("title", "C")] []) "title"
      = some "B" := by
  constructor
  · intro α mKey vKey dKey mats views docs assemblyData materialData buildData
      data hash k
    rw [show buildContext mKey vKey dKey mats views docs
          assemblyData materialData buildData data hash
        = hash ++ ([(dKey, docs)] ++ ([(vKey, views)] ++ ([(mKey, mats)]
          ++ (buildData ++ (materialData ++ (assemblyData ++ data))))))
      from by simp [buildContext, assignList, assignObj]]
    simp only [objGet_append]
  · decide

/-- C7: with an error callback configured the normalized error is passed to
it and the process is not terminated; with error logging enabled the error is
printed and the process is not terminated; with neither, the error is printed
and the process exits with a non-zero status. -/
theorem handleError_policy (hasOnError logErrors : Bool) (e : Obj String) :
    (hasOnError = true →
      (handleError hasOnError logErrors e).onErrorCalledWith
          = some (assignObj errorDefaults e) ∧
      (handleError hasOnError logErrors e).exited = false) ∧
    (logErrors = true →
      (handleError hasOnError logErrors e).loggedToConsole = true ∧
      (handleError hasOnError logErrors e).exited = false) ∧
    (hasOnError = false → logErrors = false →
      (handleError hasOnError logErrors e).printedFatal = true ∧
      (handleError hasOnError logErrors e).exited = true) := by
  cases hasOnError <;> cases logErrors <;> simp [handleError]

/-- Witness for `handleError_policy` at concrete configurations. -/
theorem handleError_policy_witness :
    (handleError true false [("message", "boom")]).exited = false ∧
    (handleError false true []).exited = false ∧
    (handleError false false []).exited = true := by
  refine ⟨((handleError_policy true false [("message", "boom")]).1 rfl).2,
    ((handleError_policy false true []).2.1 rfl).2,
    ((handleError_policy false false []).2.2 rfl rfl).2⟩

/-- C5 counterexample: the sorting step touches only the top level and each
top-level collection's items mapping (lines 390-394), so a sub-collection
entry's own items mapping is left unsorted — here it stays in the order
a (order 2), b (order 1), which is not sorted for the claimed ordering. -/
theorem sortMaterials_subcollection_cex :
    sortMaterials [("comps",
        ⟨none, [("widgets", ⟨none, some [("a", some 2), ("b", some 1)]⟩)]⟩)]
      = [("comps",
        ⟨none, [("widgets", ⟨none, some [("a", some 2), ("b", some 1)]⟩)]⟩)] ∧
    ¬ List.Sorted itemLE [("a", some 2), ("b", some 1)] := by
  refine ⟨by decide, by decide⟩

/-- C5 amended: after all material files are stubbed and populated, the
top-level materials collection mapping and each top-level collection's items
mapping are sorted using each item's optional explicit order attribute
ascending, items lacking an order coming after all explicitly ordered items
and alphabetically by key among themselves — items {a: order 2, b: order 1,
c: no order} end up b, a, c — while items mappings nested inside
sub-collection entries are left untouched by the sorting step. -/
theorem sortMaterials_ordering :
    (∀ (α : Type) (ord : α → Option Nat) (l : List (String × α)),
      (sortObjM ord l).Perm l ∧ List.Sorted (entryLE ord) (sortObjM ord l)) ∧
    (∀ m : List (String × MatColl),
      List.Sorted (entryLE MatColl.order) (sortMaterials m) ∧
      (∀ k c, (k, c) ∈ sortMaterials m ↔
        ∃ c0, (k, c0) ∈ m ∧ c = ⟨c0.order, sortObjM MatEntry.order c0.items⟩) ∧
      (∀ k c, (k, c) ∈ sortMaterials m →
        List.Sorted (entryLE MatEntry.order) c.items)) ∧
    sortObjM (fun o => o) [("a", some 2), ("b", some 1), ("c", none)]
      = [("b", some 1), ("a", some 2), ("c", none)] := by
  refine ⟨fun α ord l => ⟨List.perm_insertionSort _ _,
    List.sorted_insertionSort _ _⟩, fun m => ?_, by decide⟩
  have hiff : ∀ k c, (k, c) ∈ sortMaterials m ↔
      ∃ c0, (k, c0) ∈ m ∧ c = ⟨c0.order, sortObjM MatEntry.order c0.items⟩ := by
    intro k c
    constructor
    · intro hmem
      unfold sortMaterials at hmem
      obtain ⟨kv, hkv, hfkv⟩ := List.mem_map.mp hmem
      rcases kv with ⟨k0, c0⟩
      have hk : k0 = k := congrArg Prod.fst hfkv
      have hc : c = ⟨c0.order, sortObjM MatEntry.order c0.items⟩ :=
        (congrArg Prod.snd hfkv).symm
      refine ⟨c0, ?_, hc⟩
      rw [← hk]
      unfold sortObjM at hkv
      exact ((List.perm_insertionSort (entryLE MatColl.order) m).mem_iff).mp hkv
    · rintro ⟨c0, hc0, hc⟩
      unfold sortMaterials
      apply List.mem_map.mpr
      refine ⟨(k, c0), ?_, ?_⟩
      · unfold sortObjM
        exact ((List.perm_insertionSort (entryLE MatColl.order) m).mem_iff).mpr
          hc0
      · rw [hc]
  refine ⟨?_, hiff, ?_⟩
  · have hs : List.Sorted (entryLE MatColl.order) (sortObjM MatColl.order m) :=
      List.sorted_insertionSort _ _
    unfold sortMaterials
    exact List.Pairwise.map _ (fun a b hab => hab) hs
  · intro k c hmem
    obtain ⟨c0, _, hc⟩ := (hiff k c).mp hmem
    rw [hc]
    exact List.sorted_insertionSort _ _

/-- Witness for `sortMaterials_ordering`: the spec example as the items of a
concrete top-level collection, its sortedness obtained through the theorem
at a concrete tree membership. -/
theorem sortMaterials_ordering_witness :
    List.Sorted (entryLE MatEntry.order)
      (sortObjM MatEntry.order
        [("a", (⟨some 2, none⟩ : MatEntry)), ("b", ⟨some 1, none⟩),
          ("c", ⟨none, none⟩)]) := by
  have h := sortMaterials_ordering
  exact (h.2.1 [("col", ⟨none,
      [("a", ⟨some 2, none⟩), ("b", ⟨some 1, none⟩), ("c", ⟨none, none⟩)]⟩)]).2.2
    "col"
    ⟨none, sortObjM MatEntry.order
      [("a", ⟨some 2, none⟩), ("b", ⟨some 1, none⟩), ("c", ⟨none, none⟩)]⟩
    (by decide)

/-- C3: the output path of a view is the default
`dest/collection/basename`, fully replaced by a front-matter destination when
present, overridden again by a destination-map entry for the collection, with
the extension rewritten last; the three spec examples resolve as stated. -/
theorem resolveOutPath_order :
    (∀ (dest vk ext : String) (dm : Obj String) (fmd : Option String)
        (file : String),
      (∀ m, objGet dm (collectionOf vk file) = some m →
        resolveOutPath dest vk ext dm fmd file
          = replaceExt ⟨pathNormL (joinSegs [m.toList, basenameL file.toList])⟩ ext) ∧
      (objGet dm (collectionOf vk file) = none → ∀ d, fmd = some d →
        resolveOutPath dest vk ext dm fmd file
          = replaceExt ⟨pathNormL d.toList⟩ ext) ∧
      (objGet dm (collectionOf vk file) = none → fmd = none →
        resolveOutPath dest vk ext dm fmd file
          = replaceExt ⟨pathJoinL [dest.toList, (collectionOf vk file).toList,
              basenameL file.toList]⟩ ext)) ∧
    resolveOutPath "dist" "views" ".htm" [] none "views/forms/input.html"
      = "dist/forms/input.htm" ∧
    resolveOutPath "dist" "views" ".htm" [("forms", "out/f")] none
      "views/forms/input.html" = "out/f/input.htm" ∧
    resolveOutPath "dist" "views" ".htm" [] (some "custom/x.html")
      "views/forms/input.html" = "custom/x.htm" := by
  refine ⟨fun dest vk ext dm fmd file => ⟨?_, ?_, ?_⟩, by decide, by decide, by decide⟩
  · intro m hm
    simp [resolveOutPath, hm]
  · intro hm d hd
    simp [resolveOutPath, hm, hd]
  · intro hm hd
    simp [resolveOutPath, hm, hd]

/-- Witness for `resolveOutPath_order`: each of the three override branches
discharged at a concrete view file. -/
theorem resolveOutPath_order_witness :
    resolveOutPath "dist" "views" ".htm" [("forms", "out/f")]
        (some "custom/x.html") "views/forms/input.html"
      = replaceExt ⟨pathNormL (joinSegs ["out/f".toList,
          basenameL "views/forms/input.html".toList])⟩ ".htm" ∧
    resolveOutPath "dist" "views" ".htm" [] (some "custom/x.html")
        "views/forms/input.html"
      = replaceExt ⟨pathNormL "custom/x.html".toList⟩ ".htm" ∧
    resolveOutPath "dist" "views" ".htm" [] none "views/forms/input.html"
      = replaceExt ⟨pathJoinL ["dist".toList,
          (collectionOf "views" "views/forms/input.html").toList,
          basenameL "views/forms/input.html".toList]⟩ ".htm" := by
  refine ⟨(resolveOutPath_order.1 "dist" "views" ".htm" [("forms", "out/f")]
      (some "custom/x.html") "views/forms/input.html").1 "out/f" (by decide),
    (resolveOutPath_order.1 "dist" "views" ".htm" [] (some "custom/x.html")
      "views/forms/input.html").2.1 (by decide) "custom/x.html" rfl,
    (resolveOutPath_order.1 "dist" "views" ".htm" [] none
      "views/forms/input.html").2.2 (by decide) rfl⟩

/-- C4 counterexample: the two classification sites disagree.  For the file
`src/materials/comp.v2/btns/x.html` the population loop (raw grandparent
name `comp.v2`, which is in the matched-directory name set) classifies the
directory as a sub-collection, while the stub loop at the claim's cited
lines passes the grandparent through `getName`, obtaining `comp` (the
dotted suffix is dropped as an extension), which is not in the set — so the
claimed single iff classification does not exist for such names. -/
theorem subCollection_two_sites_cex :
    isSubCollection (subDirNames ["src/materials/comp.v2/"])
        "src/materials/comp.v2/btns/x.html" = true ∧
    isSubCollectionStub (subDirNames ["src/materials/comp.v2/"])
        "src/materials/comp.v2/btns/x.html" = false := by
  refine ⟨by decide, by decide⟩

/-- C4 amended: the population pass classifies a material file as belonging
to a sub-collection exactly when its raw grandparent directory name is in
the set of matched directory names, while the stub pass applies the same
membership test to the grandparent name passed through `getName` (basename
minus extension, whitespace to dashes, numbers preserved); the name set is
computed once per run from the full matched-directory list, both
classifications are stable under any reordering of that list, and they
coincide — giving a single classification — whenever `getName` leaves the
grandparent name unchanged. -/
theorem isSubCollection_characterization (l l' : List String) (file : String)
    (hperm : l.Perm l') :
    (isSubCollection (subDirNames l) file = true ↔
      ∃ p, fileParentName file = some p ∧ p ∈ subDirNames l) ∧
    (isSubCollectionStub (subDirNames l) file = true ↔
      ∃ p, fileParentName file = some p ∧ getNameStr p true ∈ subDirNames l) ∧
    isSubCollection (subDirNames l) file
      = isSubCollection (subDirNames l') file ∧
    isSubCollectionStub (subDirNames l) file
      = isSubCollectionStub (subDirNames l') file ∧
    (∀ p, fileParentName file = some p → getNameStr p true = p →
      isSubCollectionStub (subDirNames l) file
        = isSubCollection (subDirNames l) file) := by
  have hsub : ∀ x, x ∈ subDirNames l ↔ x ∈ subDirNames l' :=
    fun x => (hperm.filterMap dirSlotName).mem_iff
  refine ⟨?_, ?_, ?_, ?_, ?_⟩
  · cases h : fileParentName file with
    | none => simp [isSubCollection, h]
    | some p =>
        simp only [isSubCollection, h]
        constructor
        · intro hc
          exact ⟨p, rfl, by simpa using hc⟩
        · rintro ⟨q, hq, hmem⟩
          cases hq
          simpa using hmem
  · cases h : fileParentName file with
    | none => simp [isSubCollectionStub, stubParentName, h]
    | some p =>
        simp only [isSubCollectionStub, stubParentName, h, Option.map_some']
        constructor
        · intro hc
          exact ⟨p, rfl, by simpa using hc⟩
        · rintro ⟨q, hq, hmem⟩
          cases hq
          simpa using hmem
  · cases h : fileParentName file with
    | none => simp [isSubCollection, h]
    | some p =>
        simp only [isSubCollection, h]
        by_cases hp : p ∈ subDirNames l
        · have hp' : p ∈ subDirNames l' := (hsub p).mp hp
          simp [List.contains, List.elem_iff, hp, hp']
        · have hp' : p ∉ subDirNames l' := fun hh => hp ((hsub p).mpr hh)
          simp [List.contains, List.elem_iff, hp, hp']
  · cases h : fileParentName file with
    | none => simp [isSubCollectionStub, stubParentName, h]
    | some p =>
        simp only [isSubCollectionStub, stubParentName, h, Option.map_some']
        by_cases hp : getNameStr p true ∈ subDirNames l
        · have hp' : getNameStr p true ∈ subDirNames l' := (hsub _).mp hp
          simp [List.contains, List.elem_iff, hp, hp']
        · have hp' : getNameStr p true ∉ subDirNames l' :=
            fun hh => hp ((hsub _).mpr hh)
          simp [List.contains, List.elem_iff, hp, hp']
  · intro p hp hid
    simp only [isSubCollectionStub, stubParentName, isSubCollection, hp,
      Option.map_some']
    rw [hid]

/-- Witness for `isSubCollection_characterization`: a reordered matched
directory list and a sub-collection material file whose grandparent name is
left unchanged by `getName`, so both sites agree. -/
theorem isSubCollection_characterization_witness :
    isSubCollection
        (subDirNames ["src/materials/components/",
          "src/materials/components/02-buttons/"])
        "src/materials/components/02-buttons/01-primary.html" = true ∧
    isSubCollection
        (subDirNames ["src/materials/components/",
          "src/materials/components/02-buttons/"])
        "src/materials/components/02-buttons/01-primary.html"
      = isSubCollection
        (subDirNames ["src/materials/components/02-buttons/",
          "src/materials/components/"])
        "src/materials/components/02-buttons/01-primary.html" ∧
    isSubCollectionStub
        (subDirNames ["src/materials/components/",
          "src/materials/components/02-buttons/"])
        "src/materials/components/02-buttons/01-primary.html"
      = isSubCollection
        (subDirNames ["src/materials/components/",
          "src/materials/components/02-buttons/"])
        "src/materials/components/02-buttons/01-primary.html" := by
  have h := isSubCollection_characterization
    ["src/materials/components/", "src/materials/components/02-buttons/"]
    ["src/materials/components/02-buttons/", "src/materials/components/"]
    "src/materials/components/02-buttons/01-primary.html"
    (List.Perm.swap _ _ _)
  exact ⟨h.1.mpr ⟨"components", by decide, by decide⟩, h.2.2.1,
    h.2.2.2.2 "components" (by decide) (by decide)⟩

/-- Definition following the words of the spec, for comparison with the code:
a view lies directly under the views root when its normalized parent
directory path equals the views root path.  With the default configuration
the views root is the base directory of the views glob, `src/views`. -/
def liesDirectlyUnderRoot (viewsRoot file : String) : Prop :=
  (⟨pathNormL (dirnameL file.toList)⟩ : String) = viewsRoot

/-- C8 counterexample: the code classifies a view by the name of its
immediate parent directory, not by its position relative to the views root.
A view nested at `src/views/sub/views/a.html` (matched by the default views
glob, whose root is `src/views`) gets an empty collection name even though it
does not lie directly under the views root, so the claimed equivalence fails
and no baseurl is injected for it. -/
theorem collectionOf_root_cex :
    ¬ ((collectionOf "views" "src/views/sub/views/a.html" = "") ↔
        liesDirectlyUnderRoot "src/views" "src/views/sub/views/a.html") := by
  intro h
  have hb := h.mp (by decide)
  unfold liesDirectlyUnderRoot at hb
  revert hb
  decide

/-- C8 amended: the collection name of a view is empty exactly when the name
of its immediate parent directory equals the configured views key (not
necessarily when the file lies directly under the views root), and exactly
when the collection name is non-empty a `baseurl` field with value `..` is
injected into the page data before the context is built. -/
theorem collectionOf_baseurl (viewsKey file : String) (data : Obj String)
    (hparent : parentDirName file ≠ "") :
    (collectionOf viewsKey file = "" ↔ parentDirName file = viewsKey) ∧
    (collectionOf viewsKey file ≠ "" →
      objGet (injectBaseurl viewsKey file data) "baseurl" = some "..") ∧
    (collectionOf viewsKey file = "" →
      injectBaseurl viewsKey file data = data) := by
  refine ⟨?_, ?_, ?_⟩
  · unfold collectionOf
    by_cases h : parentDirName file = viewsKey <;> simp [h, hparent]
  · intro hne
    unfold injectBaseurl
    simp only [if_neg hne]
    exact objGet_objSet_self data "baseurl" ".."
  · intro he
    simp [injectBaseurl, he]

/-- Witness for `collectionOf_baseurl`: a view inside a collection directory
receives the baseurl injection, a root-level view does not. -/
theorem collectionOf_baseurl_witness :
    (collectionOf "views" "src/views/pages/about.html" = "" ↔
      parentDirName "src/views/pages/about.html" = "views") ∧
    objGet (injectBaseurl "views" "src/views/pages/about.html" []) "baseurl"
      = some ".." ∧
    injectBaseurl "views" "src/views/home.html" [("title", "C")]
      = [("title", "C")] := by
  have h1 := collectionOf_baseurl "views" "src/views/pages/about.html" []
    (by decide)
  have h2 := collectionOf_baseurl "views" "src/views/home.html"
    [("title", "C")] (by decide)
  exact ⟨h1.1, h1.2.1 (by decide), h2.2.2 (by decide)⟩

/-- Folding `parseViewsStep` skips every file whose collection name is
empty, so such files never contribute to the tree. -/
theorem parseViews_foldl_filter (viewsKey : String)
    (p : String × Obj String → Bool)
    (hp : ∀ fp, p fp = false → collectionOf viewsKey fp.1 = "") :
    ∀ (files : List (String × Obj String)) (tree : Obj ViewColl),
      files.foldl (fun t fp => parseViewsStep viewsKey t fp.1 fp.2) tree
        = (files.filter p).foldl
            (fun t fp => parseViewsStep viewsKey t fp.1 fp.2) tree := by
  intro files
  induction files with
  | nil => intro tree; rfl
  | cons fp fps ih =>
      intro tree
      cases hb : p fp with
      | true => simp [List.filter, hb, List.foldl, ih]
      | false =>
          have hskip : parseViewsStep viewsKey tree fp.1 fp.2 = tree := by
            simp [parseViewsStep, hp fp hb]
          simp [List.filter, hb, List.foldl, hskip, ih]

/-- Every key of the view tree built by the fold is a non-empty collection
name of one of the folded files, unless it was already in the start tree. -/
theorem parseViews_keys_aux (viewsKey : String) :
    ∀ (files : List (String × Obj String)) (tree : Obj ViewColl)
      (c : String) (coll : ViewColl),
      objGet (files.foldl (fun t fp => parseViewsStep viewsKey t fp.1 fp.2) tree)
          c = some coll →
      (objGet tree c).isSome ∨
        (c ≠ "" ∧ ∃ fp ∈ files, collectionOf viewsKey fp.1 = c) := by
  intro files
  induction files with
  | nil =>
      intro tree c coll h
      left
      simp [List.foldl] at h
      simp [h]
  | cons fp fps ih =>
      intro tree c coll h
      simp only [List.foldl] at h
      rcases ih (parseViewsStep viewsKey tree fp.1 fp.2) c coll h with h1 | h2
      · by_cases hc : collectionOf viewsKey fp.1 = ""
        · left
          simpa [parseViewsStep, hc] using h1
        · by_cases hcc : c = collectionOf viewsKey fp.1
          · right
            exact ⟨by simpa [hcc] using hc, fp, List.mem_cons_self fp fps,
              hcc.symm⟩
          · left
            have hne : c ≠ collectionOf viewsKey fp.1 := hcc
            simpa [parseViewsStep, hc, objGet_objSet_ne _ _ _ _ hne] using h1
      · right
        exact ⟨h2.1, h2.2.choose, List.mem_cons_of_mem fp h2.2.choose_spec.1,
          h2.2.choose_spec.2⟩

/-- Lookup through one `parseViewsStep` at a different key is unchanged. -/
theorem parseViewsStep_get_ne (viewsKey : String) (tree : Obj ViewColl)
    (file : String) (fd : Obj String) (c : String)
    (hne : c ≠ collectionOf viewsKey file) :
    objGet (parseViewsStep viewsKey tree file fd) c = objGet tree c := by
  by_cases hc : collectionOf viewsKey file = ""
  · simp [parseViewsStep, hc]
  · simp only [parseViewsStep, if_neg hc]
    exact objGet_objSet_ne _ _ _ _ hne

/-- Lookup through one `parseViewsStep` at the stored key yields the updated
collection. -/
theorem parseViewsStep_get_self (viewsKey : String) (tree : Obj ViewColl)
    (file : String) (fd : Obj String)
    (hc : collectionOf viewsKey file ≠ "") :
    objGet (parseViewsStep viewsKey tree file fd) (collectionOf viewsKey file)
      = some
        (let prev := (objGet tree (collectionOf viewsKey file)).getD
          ⟨toTitleCase (collectionOf viewsKey file), []⟩
        ⟨prev.name, objSet prev.items (getNameStr file true)
          ⟨toTitleCase (getNameStr file true), fd⟩⟩) := by
  simp [parseViewsStep, hc, objGet_objSet_self]

/-- Every item stored under a collection key by the fold comes from a folded
file with that collection name and that id, unless it was already present in
the start tree. -/
theorem parseViews_items_aux (viewsKey : String) :
    ∀ (files : List (String × Obj String)) (tree : Obj ViewColl)
      (c : String) (coll : ViewColl) (i : String) (item : ViewItem),
      objGet (files.foldl (fun t fp => parseViewsStep viewsKey t fp.1 fp.2) tree)
          c = some coll →
      objGet coll.items i = some item →
      (∃ coll0, objGet tree c = some coll0 ∧
        (objGet coll0.items i).isSome) ∨
        ∃ fp ∈ files, collectionOf viewsKey fp.1 = c ∧ getNameStr fp.1 true = i := by
  intro files
  induction files with
  | nil =>
      intro tree c coll i item h hi
      left
      simp [List.foldl] at h
      exact ⟨coll, h, by simp [hi]⟩
  | cons fp fps ih =>
      intro tree c coll i item h hi
      simp only [List.foldl] at h
      rcases ih (parseViewsStep viewsKey tree fp.1 fp.2) c coll i item h hi with
        ⟨coll0, h0, hi0⟩ | h2
      · by_cases hc : collectionOf viewsKey fp.1 = ""
        · left
          exact ⟨coll0, by simpa [parseViewsStep, hc] using h0, hi0⟩
        · by_cases hcc : c = collectionOf viewsKey fp.1
          · by_cases hid : i = getNameStr fp.1 true
            · right
              exact ⟨fp, List.mem_cons_self fp fps, hcc.symm, hid.symm⟩
            · have hni : i ≠ getNameStr fp.1 true := hid
              rw [hcc] at h0
              rw [parseViewsStep_get_self viewsKey tree fp.1 fp.2 hc] at h0
              have hcoll0 := (Option.some.injEq _ _).mp h0.symm
              cases hprev : objGet tree (collectionOf viewsKey fp.1) with
              | some prev =>
                  left
                  refine ⟨prev, by rw [hcc]; exact hprev, ?_⟩
                  have hitems : objGet coll0.items i = objGet prev.items i := by
                    rw [hcoll0]
                    simp only [hprev, Option.getD_some]
                    exact objGet_objSet_ne _ _ _ _ hni
                  rwa [hitems] at hi0
              | none =>
                  exfalso
                  have hitems : objGet coll0.items i = none := by
                    rw [hcoll0]
                    simp only [hprev, Option.getD_none]
                    rw [objGet_objSet_ne _ _ _ _ hni]
                    rfl
                  rw [hitems] at hi0
                  simp at hi0
          · left
            have hne : c ≠ collectionOf viewsKey fp.1 := hcc
            exact ⟨coll0,
              by rwa [parseViewsStep_get_ne viewsKey tree fp.1 fp.2 c hne] at h0,
              hi0⟩
      · right
        exact ⟨h2.choose, List.mem_cons_of_mem fp h2.choose_spec.1,
          h2.choose_spec.2⟩

/-- C9: files whose parent directory is the views root (a directory named by
the views key) contribute nothing to the views tree; every tree entry is a
collection keyed by a non-empty directory name holding items that come from
files of that collection; and every view file, root-level ones included,
still produces a write during assembly. -/
theorem parseViews_root_level (viewsKey viewsRoot : String)
    (files : List (String × Obj String)) (dest ext : String) (dm : Obj String)
    (hroot : (⟨lastSegOf (splitSlash viewsRoot.toList)⟩ : String) = viewsKey) :
    parseViews viewsKey files
      = parseViews viewsKey (files.filter (fun fp =>
          (⟨pathNormL (dirnameL fp.1.toList)⟩ : String) != viewsRoot)) ∧
    (∀ c coll, objGet (parseViews viewsKey files) c = some coll →
      c ≠ "" ∧ ∃ fp ∈ files, collectionOf viewsKey fp.1 = c) ∧
    (∀ c coll i item, objGet (parseViews viewsKey files) c = some coll →
      objGet coll.items i = some item →
      ∃ fp ∈ files, collectionOf viewsKey fp.1 = c ∧ getNameStr fp.1 true = i) ∧
    (∀ fp ∈ files,
      resolveOutPath dest viewsKey ext dm (objGet fp.2 "dest") fp.1
        ∈ assembleWrites dest viewsKey ext dm files) := by
  refine ⟨?_, ?_, ?_, ?_⟩
  · apply parseViews_foldl_filter
    intro fp hp
    have heq : (⟨pathNormL (dirnameL fp.1.toList)⟩ : String) = viewsRoot := by
      simpa using hp
    have hdata : pathNormL (dirnameL fp.1.toList) = viewsRoot.toList :=
      congrArg String.data heq
    have hpd : parentDirName fp.1 = viewsKey := by
      unfold parentDirName
      rw [hdata]
      exact hroot
    simp [collectionOf, hpd]
  · intro c coll h
    rcases parseViews_keys_aux viewsKey files [] c coll h with h1 | h2
    · simp [objGet] at h1
    · exact h2
  · intro c coll i item h hi
    rcases parseViews_items_aux viewsKey files [] c coll i item h hi with
      ⟨coll0, h0, _⟩ | h2
    · simp [objGet] at h0
    · exact h2
  · intro fp hfp
    exact List.mem_map_of_mem _ hfp

/-- Witness for `parseViews_root_level`: the default configuration, one
root-level view and one collection view. -/
theorem parseViews_root_level_witness :
    parseViews "views"
        [("src/views/home.html", [("title", "C")]),
          ("src/views/pages/about.html", [])]
      = parseViews "views"
          ([("src/views/home.html", [("title", "C")]),
            ("src/views/pages/about.html", [])].filter (fun fp =>
            (⟨pathNormL (dirnameL fp.1.toList)⟩ : String) != "src/views")) ∧
    resolveOutPath "dist" "views" ".html" [] none "src/views/home.html"
      ∈ assembleWrites "dist" "views" ".html" []
        [("src/views/home.html", [("title", "C")]),
          ("src/views/pages/about.html", [])] := by
  have h := parseViews_root_level "views" "src/views"
    [("src/views/home.html", [("title", "C")]),
      ("src/views/pages/about.html", [])] "dist" ".html" [] (by decide)
  refine ⟨h.1, ?_⟩
  have := h.2.2.2 ("src/views/home.html", [("title", "C")])
    (List.mem_cons_self _ _)
  simpa using this

/-! ## Numeric-prefix stripping lemmas for the `material` helper -/

theorem dropDigits_exact (d r : List Char) (hd : ∀ ch ∈ d, ch.isDigit = true)
    (hr : ∀ ch, r.head? = some ch → ch.isDigit = false) :
    dropDigits (d ++ r) = (d.length, r) := by
  induction d with
  | nil =>
      cases r with
      | nil => rfl
      | cons c t => simp [dropDigits, hr c rfl]
  | cons c d' ih =>
      have hc : c.isDigit = true := hd c (List.mem_cons_self c d')
      have ih' := ih (fun ch hch => hd ch (List.mem_cons_of_mem c hch))
      simp [dropDigits, hc, ih']

theorem eatNumGroups_none (s : List Char)
    (hs : ∀ ch, s.head? = some ch → ch.isDigit = false) :
    ∀ fuel, eatNumGroups fuel s = none := by
  intro fuel
  cases fuel with
  | zero => rfl
  | succ f =>
      cases s with
      | nil => simp [eatNumGroups, dropDigits]
      | cons c t => simp [eatNumGroups, dropDigits, hs c rfl]

theorem eatNumGroups_exact (d tail : List Char) (s : Char)
    (hne : d ≠ []) (hd : ∀ ch ∈ d, ch.isDigit = true)
    (hs : s = '-' ∨ s = '.')
    (ht : ∀ ch, tail.head? = some ch → ch.isDigit = false) :
    ∀ fuel, eatNumGroups (fuel + 1) (d ++ s :: tail) = some tail := by
  intro fuel
  have hsep : s.isDigit = false := by
    rcases hs with h | h <;> subst h <;> rfl
  have hdrop : dropDigits (d ++ s :: tail) = (d.length, s :: tail) :=
    dropDigits_exact d (s :: tail) hd (fun ch hch => by
      cases hch; exact hsep)
  have hlen : d.length ≠ 0 := by
    cases d with
    | nil => exact absurd rfl hne
    | cons c t => simp
  simp [eatNumGroups, hdrop, hlen, hs, eatNumGroups_none tail ht fuel]

theorem stripNumScan_pre (pre : List Char)
    (hpre : ∀ ch ∈ pre, ch.isDigit = false) :
    ∀ (fuel : Nat) (s : List Char),
      stripNumScan (pre.length + fuel) (pre ++ s) = pre ++ stripNumScan fuel s := by
  induction pre with
  | nil => intro fuel s; simp
  | cons c pre' ih =>
      intro fuel s
      have hc : c.isDigit = false := hpre c (List.mem_cons_self c pre')
      have hnone : eatNumGroups ((pre'.length + fuel) + 1)
          (c :: (pre' ++ s)) = none :=
        eatNumGroups_none _ (fun ch hch => by cases hch; exact hc) _
      have harith : (c :: pre').length + fuel = (pre'.length + fuel) + 1 := by
        simp [Nat.add_right_comm]
      rw [harith]
      show (match (c :: (pre' ++ s) : List Char) with
        | [] => []
        | ch :: t =>
            match eatNumGroups ((pre'.length + fuel) + 1) (ch :: t) with
            | some r => r
            | none => ch :: stripNumScan (pre'.length + fuel) t)
        = (c :: pre') ++ stripNumScan fuel s
      rw [show ((c :: (pre' ++ s) : List Char)) = c :: (pre' ++ s) from rfl]
      simp only [hnone]
      rw [ih (fun ch hch => hpre ch (List.mem_cons_of_mem c hch)) fuel s]
      rfl

theorem stripNumScan_match (d tail : List Char) (s : Char)
    (hne : d ≠ []) (hd : ∀ ch ∈ d, ch.isDigit = true)
    (hs : s = '-' ∨ s = '.')
    (ht : ∀ ch, tail.head? = some ch → ch.isDigit = false) :
    ∀ fuel, stripNumScan (fuel + 1) (d ++ s :: tail) = tail := by
  intro fuel
  have heat := eatNumGroups_exact d tail s hne hd hs ht fuel
  cases d with
  | nil => exact absurd rfl hne
  | cons c d' =>
      simp only [List.cons_append] at heat ⊢
      show (match eatNumGroups (fuel + 1) (c :: (d' ++ s :: tail)) with
        | some r => r
        | none => c :: stripNumScan fuel (d' ++ s :: tail)) = tail
      rw [heat]

/-- Double numeric-prefix stripping: a reference name with a digit prefix on
both the sub-collection segment and the leaf segment reduces to the plain
dotted key. -/
theorem helperKeyOf_strip (d1 d2 : List Char) (s1 s2 : Char) (a b : String)
    (h1 : d1 ≠ []) (hd1 : ∀ ch ∈ d1, ch.isDigit = true)
    (h2 : d2 ≠ []) (hd2 : ∀ ch ∈ d2, ch.isDigit = true)
    (hs1 : s1 = '-' ∨ s1 = '.') (hs2 : s2 = '-' ∨ s2 = '.')
    (ha : ∀ ch ∈ a.toList, ch.isDigit = false)
    (hb : ∀ ch ∈ b.toList, ch.isDigit = false) :
    helperKeyOf ⟨d1 ++ s1 :: (a.toList ++ '.' :: (d2 ++ s2 :: b.toList))⟩
      = a ++ "." ++ b := by
  have hta : ∀ ch, (a.toList ++ '.' :: (d2 ++ s2 :: b.toList)).head?
      = some ch → ch.isDigit = false := by
    intro ch hch
    cases haL : a.toList with
    | nil =>
        rw [haL] at hch
        simp at hch
        rw [← hch]
        rfl
    | cons c t =>
        rw [haL] at hch
        simp at hch
        rw [← hch]
        exact ha c (by rw [haL]; exact List.mem_cons_self c t)
  have htb : ∀ ch, (b.toList).head? = some ch → ch.isDigit = false := by
    intro ch hch
    cases hbL : b.toList with
    | nil => rw [hbL] at hch; simp at hch
    | cons c t =>
        rw [hbL] at hch
        simp at hch
        rw [← hch]
        exact hb c (by rw [hbL]; exact List.mem_cons_self c t)
  have hstep1 : stripNumsOnce
      ⟨d1 ++ s1 :: (a.toList ++ '.' :: (d2 ++ s2 :: b.toList))⟩
      = ⟨a.toList ++ '.' :: (d2 ++ s2 :: b.toList)⟩ := by
    unfold stripNumsOnce
    have hlen : (String.toList
        ⟨d1 ++ s1 :: (a.toList ++ '.' :: (d2 ++ s2 :: b.toList))⟩).length
        = (d1.length + (a.toList ++ '.' :: (d2 ++ s2 :: b.toList)).length) + 1 := by
      simp [String.toList]
      omega
    rw [hlen]
    exact congrArg String.mk
      (stripNumScan_match d1 _ s1 h1 hd1 hs1 hta _)
  have hstep2 : stripNumsOnce ⟨a.toList ++ '.' :: (d2 ++ s2 :: b.toList)⟩
      = ⟨a.toList ++ '.' :: b.toList⟩ := by
    unfold stripNumsOnce
    have hpre : ∀ ch ∈ (a.toList ++ ['.']), ch.isDigit = false := by
      intro ch hch
      rcases List.mem_append.mp hch with hma | hmd
      · exact ha ch hma
      · simp at hmd
        rw [hmd]
        rfl
    have hsplit : a.toList ++ '.' :: (d2 ++ s2 :: b.toList)
        = (a.toList ++ ['.']) ++ (d2 ++ s2 :: b.toList) := by
      simp
    have hlen : (String.toList ⟨a.toList ++ '.' :: (d2 ++ s2 :: b.toList)⟩).length
        = (a.toList ++ ['.']).length + ((d2.length + b.toList.length) + 1) := by
      simp [String.toList]
      omega
    rw [hlen]
    rw [show (String.toList ⟨a.toList ++ '.' :: (d2 ++ s2 :: b.toList)⟩)
        = (a.toList ++ ['.']) ++ (d2 ++ s2 :: b.toList) from hsplit]
    rw [stripNumScan_pre (a.toList ++ ['.']) hpre _ _]
    rw [stripNumScan_match d2 _ s2 h2 hd2 hs2 htb _]
    exact congrArg String.mk (by simp)
  show stripNumsOnce (stripNumsOnce _) = _
  rw [hstep1, hstep2]
  apply String.ext
  simp [String.data_append]

/-- C6 counterexample, two failures of the claim as stated.  No caching: a
string-registered fragment is compiled by the first call, the registry is
left unchanged, and an identical second call within the same run compiles
again.  Not leading-only stripping: the unanchored replace removes the first
digits-plus-separator run anywhere, so `grid2.cell` — a registrable id with
no ordering prefix — maps to the key `gridcell`, `a1-b` maps to `ab`, and a
helper call naming the registered fragment `grid2.cell` does not find it and
throws instead of resolving it. -/
theorem materialHelper_strip_cache_cex :
    (materialHelper "materials" "views" "docs" "MT" "VT" "DT" [] [] []
        [("buttons.primary", PartialVal.str "<button>Primary</button>")]
        "02-buttons.01-primary" [] []).compiled = true ∧
    (materialHelper "materials" "views" "docs" "MT" "VT" "DT" [] [] []
        [("buttons.primary", PartialVal.str "<button>Primary</button>")]
        "02-buttons.01-primary" [] []).partialsAfter
      = [("buttons.primary", PartialVal.str "<button>Primary</button>")] ∧
    (materialHelper "materials" "views" "docs" "MT" "VT" "DT" [] [] []
        ((materialHelper "materials" "views" "docs" "MT" "VT" "DT" [] [] []
          [("buttons.primary", PartialVal.str "<button>Primary</button>")]
          "02-buttons.01-primary" [] []).partialsAfter)
        "02-buttons.01-primary" [] []).compiled = true ∧
    helperKeyOf "grid2.cell" = "gridcell" ∧
    helperKeyOf "a1-b" = "ab" ∧
    (materialHelper "materials" "views" "docs" "MT" "VT" "DT" [] [] []
        [("grid2.cell", PartialVal.str "<td></td>")]
        "grid2.cell" [] []).outcome = HelperOutcome.compileError := by
  refine ⟨?_, ?_, ?_, ?_, ?_, ?_⟩ <;> decide

/-- C6 amended: the helper removes the first digits-plus-dash-or-dot run
found anywhere in the reference name (the replace is not anchored to the
start), applied twice; for references whose segments contain no other
digit-plus-separator sequences this strips the leading numeric ordering
prefix of both the sub-collection and the leaf segment, and the registered
template is found under the stripped key — `02-buttons.01-primary` resolves
to the registered fragment — while a name like `grid2.cell` is mangled to
`gridcell`, under which no template is found and the helper throws; the
template found is executed against a context built from the nested-context
argument and the hash arguments, a source string being compiled on every
invocation — the compiled form is not written back to the registry, so no
caching occurs — and an already-compiled function being used directly. -/
theorem materialHelper_resolution (mKey vKey dKey mats views docs : String)
    (assemblyData materialData buildData : Obj String)
    (partials : Obj PartialVal) (name : String) (context hash : Obj String) :
    (∀ (d1 d2 : List Char) (s1 s2 : Char) (a b : String),
      d1 ≠ [] → (∀ ch ∈ d1, ch.isDigit = true) →
      d2 ≠ [] → (∀ ch ∈ d2, ch.isDigit = true) →
      (s1 = '-' ∨ s1 = '.') → (s2 = '-' ∨ s2 = '.') →
      (∀ ch ∈ a.toList, ch.isDigit = false) →
      (∀ ch ∈ b.toList, ch.isDigit = false) →
      helperKeyOf ⟨d1 ++ s1 :: (a.toList ++ '.' :: (d2 ++ s2 :: b.toList))⟩
        = a ++ "." ++ b) ∧
    (materialHelper mKey vKey dKey mats views docs assemblyData materialData
        buildData partials name context hash).key = helperKeyOf name ∧
    (materialHelper mKey vKey dKey mats views docs assemblyData materialData
        buildData partials name context hash).partialsAfter = partials ∧
    (materialHelper mKey vKey dKey mats views docs assemblyData materialData
        buildData partials name context hash).ctxUsed
      = buildContext mKey vKey dKey mats views docs assemblyData materialData
          buildData context hash ∧
    (∀ s, objGet partials (helperKeyOf name) = some (PartialVal.str s) →
      (materialHelper mKey vKey dKey mats views docs assemblyData materialData
          buildData partials name context hash).compiled = true ∧
      (materialHelper mKey vKey dKey mats views docs assemblyData materialData
          buildData partials name context hash).outcome
        = HelperOutcome.rendered s) ∧
    (∀ s, objGet partials (helperKeyOf name) = some (PartialVal.fn s) →
      (materialHelper mKey vKey dKey mats views docs assemblyData materialData
          buildData partials name context hash).compiled = false ∧
      (materialHelper mKey vKey dKey mats views docs assemblyData materialData
          buildData partials name context hash).outcome
        = HelperOutcome.rendered s) ∧
    helperKeyOf "02-buttons.01-primary" = "buttons.primary" ∧
    materialId "src/materials/02-buttons/01-primary.html" true
      = "buttons.primary" ∧
    helperKeyOf "grid2.cell" = "gridcell" ∧
    (materialHelper "materials" "views" "docs" "MT" "VT" "DT" [] [] []
        [("grid2.cell", PartialVal.str "<td></td>")]
        "grid2.cell" [] []).outcome = HelperOutcome.compileError := by
  refine ⟨fun d1 d2 s1 s2 a b h1 hd1 h2 hd2 hs1 hs2 ha hb =>
      helperKeyOf_strip d1 d2 s1 s2 a b h1 hd1 h2 hd2 hs1 hs2 ha hb,
    ?_, ?_, ?_, ?_, ?_, by decide, by decide, by decide, by decide⟩
  · cases hl : partialsLookup partials (helperKeyOf name) with
    | none => simp [materialHelper, hl]
    | some v => cases v <;> simp [materialHelper, hl]
  · cases hl : partialsLookup partials (helperKeyOf name) with
    | none => simp [materialHelper, hl]
    | some v => cases v <;> simp [materialHelper, hl]
  · cases hl : partialsLookup partials (helperKeyOf name) with
    | none => simp [materialHelper, hl]
    | some v => cases v <;> simp [materialHelper, hl]
  · intro s hs
    have hl : partialsLookup partials (helperKeyOf name)
        = some (PartialVal.str s) := by
      simp [partialsLookup, hs]
    refine ⟨?_, ?_⟩ <;> simp [materialHelper, hl]
  · intro s hs
    have hl : partialsLookup partials (helperKeyOf name)
        = some (PartialVal.fn s) := by
      simp [partialsLookup, hs]
    refine ⟨?_, ?_⟩ <;> simp [materialHelper, hl]

/-- Witness for `materialHelper_resolution`: the doubled-prefix reference
name, a registered string template, and a registered compiled template. -/
theorem materialHelper_resolution_witness :
    helperKeyOf ⟨['0', '2'] ++ '-' :: ("buttons".toList ++ '.'
        :: (['0', '1'] ++ '-' :: "primary".toList))⟩
      = "buttons" ++ "." ++ "primary" ∧
    (materialHelper "materials" "views" "docs" "MT" "VT" "DT" [] [] []
        [("buttons.primary", PartialVal.str "<button></button>")]
        "02-buttons.01-primary" [] []).compiled = true ∧
    (materialHelper "materials" "views" "docs" "MT" "VT" "DT" [] [] []
        [("buttons.primary", PartialVal.fn "<button></button>")]
        "02-buttons.01-primary" [] []).compiled = false := by
  have h := materialHelper_resolution "materials" "views" "docs" "MT" "VT" "DT"
    [] [] [] [("buttons.primary", PartialVal.str "<button></button>")]
    "02-buttons.01-primary" [] []
  have h2 := materialHelper_resolution "materials" "views" "docs" "MT" "VT" "DT"
    [] [] [] [("buttons.primary", PartialVal.fn "<button></button>")]
    "02-buttons.01-primary" [] []
  refine ⟨h.1 ['0', '2'] ['0', '1'] '-' '-' "buttons" "primary"
      (by decide) (by decide) (by decide) (by decide) (Or.inl rfl) (Or.inl rfl)
      (by decide) (by decide),
    (h.2.2.2.2.1 "<button></button>" (by decide)).1,
    (h2.2.2.2.2.2.1 "<button></button>" (by decide)).1⟩

/-! ## Placeholder rewriting lemmas -/

/-- Characters that can appear in a placeholder token without disturbing the
scan: not whitespace, not a brace, not a block-prefix character. -/
def safeChar (ch : Char) : Bool :=
  !(isWsChar ch) && ch ≠ '{' && ch ≠ '}' && ch ≠ '#' && ch ≠ '/'

/-- Characters of a well-behaved front-matter key.  The source splices the
key into a regular-expression pattern, so only characters with no special
regex meaning (letters, digits, dashes, underscores) keep their literal
reading there; keys with metacharacters are matched as patterns by the
source (or make the regex constructor throw) and are outside this model. -/
def safeKeyChar (ch : Char) : Bool :=
  ch.isAlphanum || ch = '-' || ch = '_'

/-- A well-behaved key: non-empty and made of `safeKeyChar` characters, so
the spliced-in key reads as literal characters in the source regex. -/
def safeKeyB (key : String) : Bool :=
  !(key.toList.isEmpty) && key.toList.all safeKeyChar

/-- The last character of a key (default is irrelevant: only used on
non-empty keys). -/
def keyLastChar (key : String) : Char :=
  (key.toList.getLast?).getD 'x'

theorem stripPref_append (p t : List Char) : stripPref p (p ++ t) = some t := by
  induction p with
  | nil => rfl
  | cons c ps ih => simp [stripPref, ih]

theorem stripPref_length (p : List Char) :
    ∀ s t, stripPref p s = some t → t.length ≤ s.length := by
  induction p with
  | nil =>
      intro s t h
      simp [stripPref] at h
      simp [h]
  | cons c ps ih =>
      intro s t h
      cases s with
      | nil => simp [stripPref] at h
      | cons x xs =>
          simp only [stripPref] at h
          by_cases hx : x = c
      -- reduce the if
          · rw [if_pos hx] at h
            have := ih xs t h
            simp
            omega
          · rw [if_neg hx] at h
            cases h

theorem closingBraces_braces (post : List Char) :
    closingBraces ('}' :: '}' :: post) = some ([], post) := by
  simp [closingBraces, isWsChar]

theorem closingBraces_none (ch : Char) (t : List Char)
    (hws : isWsChar ch = false) (hbr : ch ≠ '}') :
    closingBraces (ch :: t) = none := by
  simp only [closingBraces]
  rw [if_neg (by simp [hws])]
  split
  · rename_i rest heq
    injection heq with h1 h2
    exact absurd h1 hbr
  · rfl

theorem closingBraces_length (s w rest : List Char)
    (h : closingBraces s = some (w, rest)) : rest.length < s.length := by
  cases s with
  | nil => cases h
  | cons x xs =>
      simp only [closingBraces] at h
      by_cases hx : isWsChar x = true
      · rw [if_pos hx] at h
        split at h
        · injection h with hp
          injection hp with hw hr
          subst hr
          simp
          omega
        · cases h
      · rw [if_neg hx] at h
        split at h
        · rename_i rest' heq
          injection h with hp
          injection hp with hw hr
          subst hr
          have hlen : (x :: xs).length = rest'.length + 2 := by
            rw [heq]
            simp
          omega
        · cases h

theorem lazyReps_cons_self (c : Char) (t : List Char) :
    lazyReps c (c :: t)
      = match closingBraces t with
        | some (w, rest) => some ([c], w, rest)
        | none =>
            match lazyReps c t with
            | some (reps, w, rest) => some (c :: reps, w, rest)
            | none => none := by
  simp [lazyReps]

theorem lazyReps_replicate (c : Char) (hws : isWsChar c = false)
    (hbr : c ≠ '}') :
    ∀ (n : Nat) (post : List Char),
      lazyReps c (List.replicate (n + 1) c ++ '}' :: '}' :: post)
        = some (List.replicate (n + 1) c, [], post) := by
  intro n
  induction n with
  | zero =>
      intro post
      rw [show List.replicate 1 c = [c] from rfl]
      simp only [List.cons_append, List.nil_append]
      rw [lazyReps_cons_self, closingBraces_braces]
  | succ m ih =>
      intro post
      rw [show List.replicate (m + 2) c = c :: List.replicate (m + 1) c from rfl]
      simp only [List.cons_append]
      have hclose : closingBraces
          (List.replicate (m + 1) c ++ '}' :: '}' :: post) = none := by
        rw [show List.replicate (m + 1) c = c :: List.replicate m c from rfl]
        simp only [List.cons_append]
        exact closingBraces_none c _ hws hbr
      rw [lazyReps_cons_self, hclose, ih post]

theorem lazyReps_length (c : Char) :
    ∀ (s reps w rest : List Char),
      lazyReps c s = some (reps, w, rest) → rest.length < s.length := by
  intro s
  induction s with
  | nil => intro reps w rest h; cases h
  | cons x xs ih =>
      intro reps w rest h
      simp only [lazyReps] at h
      by_cases hx : x = c
      · rw [if_pos hx] at h
        cases hc : closingBraces xs with
        | some pr =>
            rcases pr with ⟨w0, r0⟩
            rw [hc] at h
            simp at h
            obtain ⟨h1, h2, h3⟩ := h
            rw [← h3]
            have := closingBraces_length xs w0 r0 hc
            simp
            omega
        | none =>
            rw [hc] at h
            cases hr : lazyReps c xs with
            | some tr =>
                rcases tr with ⟨reps0, w0, r0⟩
                rw [hr] at h
                simp at h
                obtain ⟨h1, h2, h3⟩ := h
                rw [← h3]
                have := ih reps0 w0 r0 hr
                simp
                omega
            | none => rw [hr] at h; cases h
      · rw [if_neg hx] at h
        cases h

theorem matchCore_key (kInit : List Char) (c : Char)
    (hws : isWsChar c = false) (hbr : c ≠ '}') (n : Nat) (post : List Char) :
    matchCore kInit c (kInit ++ List.replicate (n + 1) c ++ '}' :: '}' :: post)
      = some (kInit ++ List.replicate (n + 1) c, post) := by
  unfold matchCore
  rw [List.append_assoc, stripPref_append]
  show (match lazyReps c (List.replicate (n + 1) c ++ '}' :: '}' :: post) with
    | some (reps, w, rest) => some (kInit ++ reps ++ w, rest)
    | none => none) = _
  rw [lazyReps_replicate c hws hbr n post]
  simp

theorem matchCore_some_strip (kInit : List Char) (c : Char)
    (s s2 : List Char) (hp : stripPref kInit s = some s2) :
    matchCore kInit c s
      = match lazyReps c s2 with
        | some (reps, w, rest) => some (kInit ++ reps ++ w, rest)
        | none => none := by
  unfold matchCore
  rw [hp]

theorem matchCore_length (kInit : List Char) (c : Char) :
    ∀ s p2 rest, matchCore kInit c s = some (p2, rest) →
      rest.length < s.length := by
  intro s p2 rest h
  cases hp : stripPref kInit s with
  | none =>
      unfold matchCore at h
      rw [hp] at h
      cases h
  | some s2 =>
      rw [matchCore_some_strip kInit c s s2 hp] at h
      cases hl : lazyReps c s2 with
      | none => rw [hl] at h; cases h
      | some tr =>
          rcases tr with ⟨reps, w, r0⟩
          rw [hl] at h
          simp at h
          obtain ⟨h1, h3⟩ := h
          rw [← h3]
          have hlt := lazyReps_length c s2 reps w r0 hl
          have hle := stripPref_length kInit s s2 hp
          omega

theorem matchMid_length (kInit : List Char) (c : Char) :
    ∀ s p2 rest, matchMid kInit c s = some (p2, rest) →
      rest.length < s.length := by
  intro s p2 rest h
  cases s with
  | nil => cases h
  | cons x xs =>
      simp only [matchMid] at h
      by_cases hx : isWsChar x = true
      · rw [if_pos hx] at h
        cases hc : matchCore kInit c xs with
        | some pr =>
            rcases pr with ⟨p0, r0⟩
            rw [hc] at h
            simp at h
            obtain ⟨h1, h3⟩ := h
            rw [← h3]
            have := matchCore_length kInit c xs p0 r0 hc
            simp
            omega
        | none =>
            rw [hc] at h
            exact matchCore_length kInit c (x :: xs) p2 rest h
      · rw [if_neg hx] at h
        exact matchCore_length kInit c (x :: xs) p2 rest h

theorem matchPlaceholder_none_short (kInit : List Char) (c : Char)
    (s : List Char)
    (hs : ∀ x y t, s = x :: y :: t → x ≠ '{' ∨ y ≠ '{') :
    matchPlaceholder kInit c s = none := by
  unfold matchPlaceholder
  split
  · rename_i x s2
    rcases hs '{' '{' (x :: s2) rfl with hb | hb <;> exact absurd rfl hb
  · rfl

theorem safeChar_spec (ch : Char) (h : safeChar ch = true) :
    isWsChar ch = false ∧ ch ≠ '{' ∧ ch ≠ '}' ∧ ch ≠ '#' ∧ ch ≠ '/' := by
  simp [safeChar] at h
  tauto

theorem safeKeyChar_safe (ch : Char) (h : safeKeyChar ch = true) :
    safeChar ch = true := by
  simp [safeKeyChar] at h
  rcases h with (h | h) | h
  · have hws : isWsChar ch = false := by
      by_contra hw
      rw [Bool.not_eq_false] at hw
      simp [isWsChar] at hw
      rcases hw with h1 | h1 | h1 | h1 | h1 | h1 <;> subst h1 <;>
        exact absurd h (by decide)
    have h1 : ch ≠ '{' := by intro he; subst he; exact absurd h (by decide)
    have h2 : ch ≠ '}' := by intro he; subst he; exact absurd h (by decide)
    have h3 : ch ≠ '#' := by intro he; subst he; exact absurd h (by decide)
    have h4 : ch ≠ '/' := by intro he; subst he; exact absurd h (by decide)
    simp [safeChar, hws, h1, h2, h3, h4]
  · subst h; decide
  · subst h; decide

theorem matchMid_key (kInit : List Char) (c : Char)
    (hsafe : ∀ ch ∈ kInit ++ [c], safeChar ch = true) (n : Nat)
    (post : List Char) :
    matchMid kInit c (kInit ++ List.replicate (n + 1) c ++ '}' :: '}' :: post)
      = some (kInit ++ List.replicate (n + 1) c, post) := by
  have hc := safeChar_spec c (hsafe c (by simp))
  cases kInit with
  | nil =>
      rw [show ((([] : List Char) ++ List.replicate (n + 1) c
          ++ '}' :: '}' :: post))
        = c :: (List.replicate n c ++ '}' :: '}' :: post) from by
          simp [List.replicate_succ]]
      simp only [matchMid]
      rw [if_neg (by simp [hc.1])]
      have := matchCore_key [] c hc.1 hc.2.2.1 n post
      simpa [List.replicate_succ] using this
  | cons k0 ks =>
      have hk0 := safeChar_spec k0 (hsafe k0 (by simp))
      rw [show ((k0 :: ks) ++ List.replicate (n + 1) c ++ '}' :: '}' :: post)
        = k0 :: (ks ++ List.replicate (n + 1) c ++ '}' :: '}' :: post) from by
          simp]
      simp only [matchMid]
      rw [if_neg (by simp [hk0.1])]
      have := matchCore_key (k0 :: ks) c hc.1 hc.2.2.1 n post
      simpa using this

theorem matchPlaceholder_key (kInit : List Char) (c : Char)
    (hsafe : ∀ ch ∈ kInit ++ [c], safeChar ch = true) (pfx : List Char)
    (hpfx : pfx = [] ∨ pfx = ['#'] ∨ pfx = ['/']) (n : Nat)
    (post : List Char) :
    matchPlaceholder kInit c ('{' :: '{' :: (pfx ++ kInit
        ++ List.replicate (n + 1) c ++ '}' :: '}' :: post))
      = some ('{' :: '{' :: pfx, kInit ++ List.replicate (n + 1) c, post) := by
  have hmid := matchMid_key kInit c hsafe n post
  rcases hpfx with hp | hp | hp
  · subst hp
    have hhead : ∀ x t, (kInit ++ List.replicate (n + 1) c ++ '}' :: '}' :: post)
        = x :: t → ¬(x = '#' ∨ x = '/') := by
      intro x t hxt
      cases kInit with
      | nil =>
          have hc := safeChar_spec c (hsafe c (by simp))
          rw [show (([] : List Char) ++ List.replicate (n + 1) c
              ++ '}' :: '}' :: post)
            = c :: (List.replicate n c ++ '}' :: '}' :: post) from by
              simp [List.replicate_succ]] at hxt
          injection hxt with e1 e2
          rw [← e1]
          simp [hc.2.2.2.1, hc.2.2.2.2]
      | cons k0 ks =>
          have hk0 := safeChar_spec k0 (hsafe k0 (by simp))
          rw [show ((k0 :: ks) ++ List.replicate (n + 1) c ++ '}' :: '}' :: post)
            = k0 :: (ks ++ List.replicate (n + 1) c ++ '}' :: '}' :: post) from by
              simp] at hxt
          injection hxt with e1 e2
          rw [← e1]
          simp [hk0.2.2.2.1, hk0.2.2.2.2]
    cases hK : kInit ++ List.replicate (n + 1) c ++ '}' :: '}' :: post with
    | nil =>
        exfalso
        simp at hK
    | cons x t =>
        simp only [List.nil_append]
        rw [hK]
        simp only [matchPlaceholder]
        rw [if_neg (hhead x t hK)]
        rw [← hK, hmid]
  · subst hp
    simp only [List.cons_append, List.nil_append]
    simp only [matchPlaceholder]
    rw [if_pos (by simp)]
    rw [hmid]
  · subst hp
    simp only [List.cons_append, List.nil_append]
    simp only [matchPlaceholder]
    rw [if_pos (by simp)]
    rw [hmid]

theorem matchPlaceholder_length (kInit : List Char) (c : Char) :
    ∀ s p1 p2 rest, matchPlaceholder kInit c s = some (p1, p2, rest) →
      rest.length < s.length := by
  intro s p1 p2 rest h
  match s with
  | [] => cases h
  | [x] =>
      rw [matchPlaceholder_none_short kInit c [x] (by intro a b t ht; cases ht)]
        at h
      cases h
  | x :: y :: s1 =>
      by_cases hx : x = '{' ∧ y = '{'
      · rcases hx with ⟨hx1, hx2⟩
        subst hx1
        subst hx2
        match s1 with
        | [] =>
            rw [show matchPlaceholder kInit c ['{', '{'] = none from rfl] at h
            cases h
        | z :: s2 =>
            simp only [matchPlaceholder] at h
            by_cases hz : z = '#' ∨ z = '/'
            · rw [if_pos hz] at h
              cases hm : matchMid kInit c s2 with
              | some pr =>
                  rcases pr with ⟨p0, r0⟩
                  rw [hm] at h
                  simp at h
                  obtain ⟨h1, h2, h3⟩ := h
                  rw [← h3]
                  have := matchMid_length kInit c s2 p0 r0 hm
                  simp
                  omega
              | none =>
                  rw [hm] at h
                  cases hm1 : matchMid kInit c (z :: s2) with
                  | some pr =>
                      rcases pr with ⟨p0, r0⟩
                      rw [hm1] at h
                      simp at h
                      obtain ⟨h1, h2, h3⟩ := h
                      rw [← h3]
                      have := matchMid_length kInit c (z :: s2) p0 r0 hm1
                      simp at this ⊢
                      omega
                  | none => rw [hm1] at h; cases h
            · rw [if_neg hz] at h
              cases hm1 : matchMid kInit c (z :: s2) with
              | some pr =>
                  rcases pr with ⟨p0, r0⟩
                  rw [hm1] at h
                  simp at h
                  obtain ⟨h1, h2, h3⟩ := h
                  rw [← h3]
                  have := matchMid_length kInit c (z :: s2) p0 r0 hm1
                  simp at this ⊢
                  omega
              | none => rw [hm1] at h; cases h
      · rw [matchPlaceholder_none_short kInit c (x :: y :: s1) (by
          intro a b t ht
          injection ht with e1 ht2
          injection ht2 with e2 ht3
          rw [← e1, ← e2]
          by_cases hxx : x = '{'
          · exact Or.inr (fun hyy => hx ⟨hxx, hyy⟩)
          · exact Or.inl hxx)] at h
        cases h

theorem rewriteScan_step (nsid kInit : List Char) (c : Char) (fuel : Nat)
    (s p1 p2 rest : List Char)
    (h : matchPlaceholder kInit c s = some (p1, p2, rest)) :
    rewriteScan nsid kInit c (fuel + 1) s
      = replText nsid p1 p2 ++ rewriteScan nsid kInit c fuel rest := by
  simp [rewriteScan, h]

theorem rewriteScan_skip (nsid kInit : List Char) (c : Char) (fuel : Nat)
    (ch : Char) (t : List Char)
    (h : matchPlaceholder kInit c (ch :: t) = none) :
    rewriteScan nsid kInit c (fuel + 1) (ch :: t)
      = ch :: rewriteScan nsid kInit c fuel t := by
  simp [rewriteScan, h]

theorem matchPlaceholder_none_head (kInit : List Char) (c ch : Char)
    (t : List Char) (hch : ch ≠ '{') :
    matchPlaceholder kInit c (ch :: t) = none := by
  apply matchPlaceholder_none_short
  intro x y u heq
  injection heq with e1 e2
  rw [← e1]
  exact Or.inl hch

theorem matchPlaceholder_none_second (kInit : List Char) (c y : Char)
    (t : List Char) (hy : y ≠ '{') :
    matchPlaceholder kInit c ('{' :: y :: t) = none := by
  apply matchPlaceholder_none_short
  intro x y2 u heq
  injection heq with e1 e2
  injection e2 with e2 e3
  rw [← e2]
  exact Or.inr hy

theorem rewriteScan_congr (nsid kInit : List Char) (c : Char) :
    ∀ (n : Nat) (m : Nat) (s : List Char), s.length ≤ n → s.length ≤ m →
      rewriteScan nsid kInit c n s = rewriteScan nsid kInit c m s := by
  intro n
  induction n using Nat.strong_induction_on with
  | _ n ih =>
      intro m s hn hm
      cases s with
      | nil =>
          cases n with
          | zero => cases m with
            | zero => rfl
            | succ m' => rfl
          | succ n' => cases m with
            | zero => rfl
            | succ m' => rfl
      | cons ch t =>
          have hn1 : ∃ n', n = n' + 1 := by
            cases n with
            | zero => simp at hn
            | succ n' => exact ⟨n', rfl⟩
          have hm1 : ∃ m', m = m' + 1 := by
            cases m with
            | zero => simp at hm
            | succ m' => exact ⟨m', rfl⟩
          obtain ⟨n', rfl⟩ := hn1
          obtain ⟨m', rfl⟩ := hm1
          simp only [List.length_cons] at hn hm
          cases h : matchPlaceholder kInit c (ch :: t) with
          | some tr =>
              rcases tr with ⟨p1, p2, rest⟩
              rw [rewriteScan_step nsid kInit c n' (ch :: t) p1 p2 rest h,
                rewriteScan_step nsid kInit c m' (ch :: t) p1 p2 rest h]
              have hrest := matchPlaceholder_length kInit c (ch :: t) p1 p2 rest h
              simp only [List.length_cons] at hrest
              have hlt : rest.length ≤ n' := by omega
              have hlt2 : rest.length ≤ m' := by omega
              rw [ih n' (by omega) m' rest hlt hlt2]
          | none =>
              rw [rewriteScan_skip nsid kInit c n' ch t h,
                rewriteScan_skip nsid kInit c m' ch t h]
              rw [ih n' (by omega) m' t (by omega) (by omega)]

theorem rewriteScan_pre (nsid kInit : List Char) (c : Char) (pre : List Char)
    (hpre : '{' ∉ pre) :
    ∀ (fuel : Nat) (s : List Char),
      rewriteScan nsid kInit c (pre.length + fuel) (pre ++ s)
        = pre ++ rewriteScan nsid kInit c fuel s := by
  induction pre with
  | nil => intro fuel s; simp
  | cons ch pre' ih =>
      intro fuel s
      have hch : ch ≠ '{' := by
        intro hh
        exact hpre (by rw [hh]; exact List.mem_cons_self _ _)
      have hpre' : '{' ∉ pre' := fun hh => hpre (List.mem_cons_of_mem ch hh)
      have harith : (ch :: pre').length + fuel = (pre'.length + fuel) + 1 := by
        simp [Nat.add_right_comm]
      rw [harith, List.cons_append,
        rewriteScan_skip nsid kInit c (pre'.length + fuel) ch (pre' ++ s)
          (matchPlaceholder_none_head kInit c ch (pre' ++ s) hch),
        ih hpre' fuel s]
      rfl

/-- The single-key rewrite pass, applied to a body that is a clean prefix, a
placeholder for the key extended by `n` extra copies of its final character,
and an arbitrary remainder: the placeholder token is namespaced and the scan
continues in the remainder. -/
theorem rewriteScan_main (nsid kInit : List Char) (c : Char)
    (hsafe : ∀ ch ∈ kInit ++ [c], safeChar ch = true)
    (pre pfx post : List Char) (hpre : '{' ∉ pre)
    (hpfx : pfx = [] ∨ pfx = ['#'] ∨ pfx = ['/']) (n : Nat) :
    rewriteScan nsid kInit c
        (pre ++ '{' :: '{' :: (pfx ++ kInit ++ List.replicate (n + 1) c
          ++ '}' :: '}' :: post)).length
        (pre ++ '{' :: '{' :: (pfx ++ kInit ++ List.replicate (n + 1) c
          ++ '}' :: '}' :: post))
      = pre ++ '{' :: '{' :: (pfx ++ nsid
          ++ '.' :: (kInit ++ List.replicate (n + 1) c)
          ++ '}' :: '}' :: rewriteScan nsid kInit c post.length post) := by
  have hmatch := matchPlaceholder_key kInit c hsafe pfx hpfx n post
  have hfilter : (kInit ++ List.replicate (n + 1) c).filter
      (fun ch => !(isWsChar ch)) = kInit ++ List.replicate (n + 1) c := by
    rw [List.filter_eq_self]
    intro ch hch
    rcases List.mem_append.mp hch with hm | hm
    · have := safeChar_spec ch (hsafe ch (List.mem_append.mpr (Or.inl hm)))
      simp [this.1]
    · have hc := safeChar_spec c (hsafe c (by simp))
      have : ch = c := List.eq_of_mem_replicate hm
      rw [this]
      simp [hc.1]
  have hX : ('{' :: '{' :: (pfx ++ kInit ++ List.replicate (n + 1) c
      ++ '}' :: '}' :: post)).length
      = ((pfx.length + kInit.length + n + 4 + post.length) + 1) := by
    simp only [List.length_cons, List.length_append, List.length_replicate]
    omega
  have hlen : (pre ++ '{' :: '{' :: (pfx ++ kInit ++ List.replicate (n + 1) c
      ++ '}' :: '}' :: post)).length
      = pre.length + ((pfx.length + kInit.length + n + 4 + post.length) + 1) := by
    rw [List.length_append, hX]
  rw [hlen]
  rw [rewriteScan_pre nsid kInit c pre hpre _ _]
  rw [rewriteScan_step nsid kInit c (pfx.length + kInit.length + n + 4
      + post.length) _ _ _ _ (by
    rw [show '{' :: '{' :: (pfx ++ kInit ++ List.replicate (n + 1) c
        ++ '}' :: '}' :: post)
      = '{' :: '{' :: (pfx ++ kInit ++ List.replicate (n + 1) c
        ++ '}' :: '}' :: post) from rfl]
    exact hmatch)]
  rw [rewriteScan_congr nsid kInit c _ post.length post (by omega) (le_refl _)]
  unfold replText
  rw [hfilter]
  simp [List.append_assoc]

theorem stripPref_decomp (kInit : List Char)
    (hk : ∀ ch ∈ kInit, safeChar ch = true) :
    ∀ (tok post s2 : List Char),
      stripPref kInit (tok ++ '}' :: '}' :: post) = some s2 →
      ∃ u, tok = kInit ++ u ∧ s2 = u ++ '}' :: '}' :: post := by
  induction kInit with
  | nil =>
      intro tok post s2 h
      simp [stripPref] at h
      exact ⟨tok, rfl, h.symm⟩
  | cons k0 ks ih =>
      intro tok post s2 h
      have hk0 := safeChar_spec k0 (hk k0 (List.mem_cons_self k0 ks))
      cases tok with
      | nil =>
          exfalso
          simp only [List.nil_append, stripPref] at h
          rw [if_neg (fun hbr => hk0.2.2.1 hbr.symm)] at h
          cases h
      | cons t0 tok' =>
          simp only [List.cons_append, stripPref] at h
          by_cases ht : t0 = k0
          · rw [if_pos ht] at h
            obtain ⟨u, hu1, hu2⟩ :=
              ih (fun ch hch => hk ch (List.mem_cons_of_mem k0 hch))
                tok' post s2 h
            exact ⟨u, by rw [ht, hu1, List.cons_append], hu2⟩
          · rw [if_neg ht] at h
            cases h

theorem lazyReps_none_shape (c : Char) (hcws : isWsChar c = false)
    (hcbr : c ≠ '}') :
    ∀ (u post : List Char), (∀ ch ∈ u, safeChar ch = true) →
      (∀ j : Nat, u ≠ List.replicate (j + 1) c) →
      lazyReps c (u ++ '}' :: '}' :: post) = none := by
  intro u
  induction u with
  | nil =>
      intro post hu hshape
      simp only [List.nil_append, lazyReps]
      rw [if_neg (fun hh => hcbr hh.symm)]
  | cons d u' ih =>
      intro post hu hshape
      by_cases hd : d = c
      · subst hd
        cases u' with
        | nil => exact absurd rfl (hshape 0)
        | cons e u'' =>
            simp only [List.cons_append]
            rw [lazyReps_cons_self]
            have he := safeChar_spec e
              (hu e (List.mem_cons_of_mem d (List.mem_cons_self e u'')))
            rw [closingBraces_none e _ he.1 he.2.2.1]
            have hrec : lazyReps d ((e :: u'') ++ '}' :: '}' :: post) = none := by
              apply ih post
              · intro ch hch
                exact hu ch (List.mem_cons_of_mem d hch)
              · intro j hj
                exact hshape (j + 1) (by
                  rw [show List.replicate (j + 1 + 1) d
                    = d :: List.replicate (j + 1) d from rfl, ← hj])
            rw [show (e :: (u'' ++ '}' :: '}' :: post) : List Char)
              = (e :: u'') ++ '}' :: '}' :: post from rfl, hrec]
      · simp only [List.cons_append, lazyReps]
        rw [if_neg hd]

theorem matchCore_none_shape (kInit : List Char) (c : Char)
    (hsafe : ∀ ch ∈ kInit ++ [c], safeChar ch = true)
    (tok post : List Char) (htok : ∀ ch ∈ tok, safeChar ch = true)
    (hshape : ∀ j : Nat, tok ≠ kInit ++ List.replicate (j + 1) c) :
    matchCore kInit c (tok ++ '}' :: '}' :: post) = none := by
  have hc := safeChar_spec c (hsafe c (by simp))
  cases hp : stripPref kInit (tok ++ '}' :: '}' :: post) with
  | none =>
      unfold matchCore
      rw [hp]
  | some s2 =>
      obtain ⟨u, hu1, hu2⟩ := stripPref_decomp kInit
        (fun ch hch => hsafe ch (List.mem_append.mpr (Or.inl hch)))
        tok post s2 hp
      rw [matchCore_some_strip kInit c _ s2 hp, hu2]
      rw [lazyReps_none_shape c hc.1 hc.2.2.1 u post
        (fun ch hch => htok ch (by rw [hu1]; exact List.mem_append.mpr (Or.inr hch)))
        (fun j hj => hshape j (by rw [hu1, hj]))]

theorem matchMid_none_shape (kInit : List Char) (c : Char)
    (hsafe : ∀ ch ∈ kInit ++ [c], safeChar ch = true)
    (tok post : List Char) (htok : ∀ ch ∈ tok, safeChar ch = true)
    (hshape : ∀ j : Nat, tok ≠ kInit ++ List.replicate (j + 1) c) :
    matchMid kInit c (tok ++ '}' :: '}' :: post) = none := by
  have hcore := matchCore_none_shape kInit c hsafe tok post htok hshape
  cases tok with
  | nil =>
      simp only [List.nil_append, matchMid]
      rw [if_neg (by simp [isWsChar])]
      simpa using hcore
  | cons t0 tok' =>
      have ht0 := safeChar_spec t0 (htok t0 (List.mem_cons_self t0 tok'))
      simp only [List.cons_append, matchMid]
      rw [if_neg (by simp [ht0.1])]
      simpa using hcore

theorem matchPlaceholder_none_shape (kInit : List Char) (c : Char)
    (hsafe : ∀ ch ∈ kInit ++ [c], safeChar ch = true)
    (tok post : List Char) (htok : ∀ ch ∈ tok, safeChar ch = true)
    (hshape : ∀ j : Nat, tok ≠ kInit ++ List.replicate (j + 1) c) :
    matchPlaceholder kInit c ('{' :: '{' :: (tok ++ '}' :: '}' :: post))
      = none := by
  have hmid := matchMid_none_shape kInit c hsafe tok post htok hshape
  cases tok with
  | nil =>
      simp only [List.nil_append, matchPlaceholder]
      rw [if_neg (by simp)]
      rw [show matchMid kInit c ('}' :: '}' :: post)
        = matchMid kInit c ([] ++ '}' :: '}' :: post) from rfl, hmid]
  | cons t0 tok' =>
      have ht0 := safeChar_spec t0 (htok t0 (List.mem_cons_self t0 tok'))
      simp only [List.cons_append, matchPlaceholder]
      rw [if_neg (by simp [ht0.2.2.2.1, ht0.2.2.2.2])]
      rw [show matchMid kInit c (t0 :: (tok' ++ '}' :: '}' :: post))
        = matchMid kInit c ((t0 :: tok') ++ '}' :: '}' :: post) from rfl, hmid]

theorem rewriteScan_nomatch (nsid kInit : List Char) (c : Char)
    (hsafe : ∀ ch ∈ kInit ++ [c], safeChar ch = true)
    (pre tok post : List Char) (hpre : '{' ∉ pre)
    (htok : ∀ ch ∈ tok, safeChar ch = true)
    (hshape : ∀ j : Nat, tok ≠ kInit ++ List.replicate (j + 1) c) :
    rewriteScan nsid kInit c
        (pre ++ '{' :: '{' :: (tok ++ '}' :: '}' :: post)).length
        (pre ++ '{' :: '{' :: (tok ++ '}' :: '}' :: post))
      = pre ++ '{' :: '{' :: (tok ++ '}' :: '}'
          :: rewriteScan nsid kInit c post.length post) := by
  have htokbr : '{' ∉ tok ++ ['}', '}'] := by
    intro hmem
    rcases List.mem_append.mp hmem with hm | hm
    · exact absurd rfl (safeChar_spec '{' (htok '{' hm)).2.1
    · simp at hm
  have hlen : (pre ++ '{' :: '{' :: (tok ++ '}' :: '}' :: post)).length
      = pre.length + (((tok.length + 2 + post.length) + 1) + 1) := by
    simp only [List.length_cons, List.length_append]
    omega
  rw [hlen,
    rewriteScan_pre nsid kInit c pre hpre _ _,
    rewriteScan_skip nsid kInit c _ '{' _
      (matchPlaceholder_none_shape kInit c hsafe tok post htok hshape)]
  have hsecond : matchPlaceholder kInit c ('{' :: (tok ++ '}' :: '}' :: post))
      = none := by
    cases tok with
    | nil => exact matchPlaceholder_none_second kInit c '}' post (by decide)
    | cons t0 tok' =>
        exact matchPlaceholder_none_second kInit c t0 (tok' ++ '}' :: '}' :: post)
          (safeChar_spec t0 (htok t0 (List.mem_cons_self t0 tok'))).2.1
  rw [rewriteScan_skip nsid kInit c _ '{' _ hsecond]
  have hsplit : tok ++ '}' :: '}' :: post = (tok ++ ['}', '}']) ++ post := by
    simp
  have hlen2 : tok.length + 2 + post.length
      = (tok ++ ['}', '}']).length + post.length := by
    simp only [List.length_append, List.length_cons, List.length_nil]
  rw [hsplit, hlen2, rewriteScan_pre nsid kInit c (tok ++ ['}', '}']) htokbr _ _]
  simp

theorem rewriteScan_noop (nsid kInit : List Char) (c : Char)
    (body : List Char) (h : '{' ∉ body) :
    rewriteScan nsid kInit c body.length body = body := by
  have hbase := rewriteScan_pre nsid kInit c body h 0 []
  rw [show rewriteScan nsid kInit c 0 ([] : List Char) = [] from rfl] at hbase
  simpa using hbase

theorem rewriteKey_eq_scan (nsid key body : String) (h : key.toList ≠ []) :
    rewriteKey nsid key body
      = ⟨rewriteScan nsid.toList key.toList.dropLast (keyLastChar key)
          body.toList.length body.toList⟩ := by
  unfold rewriteKey
  cases hrev : key.toList.reverse with
  | nil => exact absurd (by simpa using congrArg List.reverse hrev) h
  | cons c rev =>
      have hkey : key.toList = rev.reverse ++ [c] := by
        have := congrArg List.reverse hrev
        simpa using this
      have hdrop : key.toList.dropLast = rev.reverse := by
        rw [hkey, List.dropLast_concat]
      have hlast : keyLastChar key = c := by
        unfold keyLastChar
        rw [hkey, List.getLast?_concat]
        rfl
      rw [hdrop, hlast]

/-- Decomposition of a safe key into its initial part and final character. -/
theorem safeKey_decomp (key : String) (hkey : safeKeyB key = true) :
    key.toList = key.toList.dropLast ++ [keyLastChar key] ∧
    (∀ ch ∈ key.toList.dropLast ++ [keyLastChar key], safeChar ch = true) := by
  have hne : key.toList ≠ [] := by
    intro hh
    simp [safeKeyB] at hkey
    exact hkey.1 hh
  have hall : ∀ ch ∈ key.toList, safeChar ch = true := by
    simp [safeKeyB] at hkey
    exact fun ch hch => safeKeyChar_safe ch (hkey.2 ch hch)
  have hlastmem : keyLastChar key = key.toList.getLast hne := by
    unfold keyLastChar
    rw [List.getLast?_eq_getLast key.toList hne]
    rfl
  have hsplit : key.toList = key.toList.dropLast ++ [keyLastChar key] := by
    rw [hlastmem]
    exact (List.dropLast_append_getLast hne).symm
  constructor
  · exact hsplit
  · intro ch hch
    apply hall
    rw [hsplit]
    exact hch

/-- C1 counterexample: with local key `a` the body `{{aa}}` — a placeholder
whose inner token does not match the key exactly — is still rewritten,
because the regex gives the final character of the spliced-in key a `+?`
quantifier; the whole token is namespaced instead of being left unchanged. -/
theorem rewriteKey_inexact_token_cex :
    rewriteKey "modal" "a" "{{aa}}" = "{{modal.aa}}" ∧
    ("{{modal.aa}}" : String) ≠ "{{aa}}" := by
  refine ⟨rfl, by decide⟩

/-- C1 amended: for a material fragment and a local key made of characters
with no special regular-expression meaning (letters, digits, dashes,
underscores — the key is spliced into the pattern, so only such keys read
literally), every placeholder whose inner token is the key — optionally
extended by extra repetitions of the final key character, which the spliced
regex also accepts, and in plain, block-opening or block-closing form — is
rewritten so that its inner token is prefixed with the namespaced id and a
dot; placeholders whose token (of safe characters) is not of that form, and
bodies without braces, are left unchanged by that key's pass. -/
theorem rewriteKey_namespacing (id key : String)
    (hkey : safeKeyB key = true) :
    (∀ (pre p post : String) (n : Nat),
      (p = "" ∨ p = "#" ∨ p = "/") → '{' ∉ pre.toList →
      rewriteKey (nsidOf id) key
          (pre ++ "\x7b\x7b" ++ p ++ key
            ++ (⟨List.replicate n (keyLastChar key)⟩ : String) ++ "\x7d\x7d" ++ post)
        = pre ++ "\x7b\x7b" ++ p ++ nsidOf id ++ "." ++ key
            ++ (⟨List.replicate n (keyLastChar key)⟩ : String) ++ "\x7d\x7d"
            ++ rewriteKey (nsidOf id) key post) ∧
    (∀ (pre tok post : String),
      '{' ∉ pre.toList → tok.toList.all safeChar = true →
      (∀ m : Nat, tok.toList
        ≠ key.toList.dropLast ++ List.replicate (m + 1) (keyLastChar key)) →
      rewriteKey (nsidOf id) key (pre ++ "\x7b\x7b" ++ tok ++ "\x7d\x7d" ++ post)
        = pre ++ "\x7b\x7b" ++ tok ++ "\x7d\x7d" ++ rewriteKey (nsidOf id) key post) ∧
    (∀ body : String, '{' ∉ body.toList →
      rewriteKey (nsidOf id) key body = body) := by
  obtain ⟨hsplit, hsafe⟩ := safeKey_decomp key hkey
  have hne : key.toList ≠ [] := by
    intro hh
    simp [safeKeyB] at hkey
    exact hkey.1 hh
  have hsplitd : key.data = key.toList.dropLast ++ [keyLastChar key] := hsplit
  refine ⟨?_, ?_, ?_⟩
  · intro pre p post n hp hpre
    have hpfx : p.toList = [] ∨ p.toList = ['#'] ∨ p.toList = ['/'] := by
      rcases hp with h | h | h <;> subst h
      · exact Or.inl rfl
      · exact Or.inr (Or.inl rfl)
      · exact Or.inr (Or.inr rfl)
    rw [rewriteKey_eq_scan _ _ _ hne, rewriteKey_eq_scan _ _ _ hne]
    apply String.ext
    have hdata : (pre ++ "\x7b\x7b" ++ p ++ key
        ++ (⟨List.replicate n (keyLastChar key)⟩ : String) ++ "\x7d\x7d"
        ++ post).toList
        = pre.toList ++ '{' :: '{' :: (p.toList ++ key.toList.dropLast
          ++ List.replicate (n + 1) (keyLastChar key)
          ++ '}' :: '}' :: post.toList) := by
      show pre.data ++ ('{' :: '{' :: []) ++ p.data ++ key.data
          ++ List.replicate n (keyLastChar key) ++ ('}' :: '}' :: [])
          ++ post.data = _
      rw [hsplitd]
      simp [List.append_assoc, List.replicate_succ]
    show rewriteScan (nsidOf id).toList key.toList.dropLast (keyLastChar key)
        (String.toList _).length (String.toList _) = _
    rw [hdata]
    rw [rewriteScan_main (nsidOf id).toList key.toList.dropLast
      (keyLastChar key) hsafe pre.toList p.toList post.toList hpre hpfx n]
    show _ = pre.data ++ ('{' :: '{' :: []) ++ p.data ++ (nsidOf id).data
        ++ ('.' :: []) ++ key.data ++ List.replicate n (keyLastChar key)
        ++ ('}' :: '}' :: [])
        ++ rewriteScan (nsidOf id).toList key.toList.dropLast (keyLastChar key)
            post.toList.length post.toList
    rw [hsplitd]
    simp [List.append_assoc, List.replicate_succ]
  · intro pre tok post hpre htokall hshape
    have htok : ∀ ch ∈ tok.toList, safeChar ch = true :=
      List.all_eq_true.mp htokall
    rw [rewriteKey_eq_scan _ _ _ hne, rewriteKey_eq_scan _ _ _ hne]
    apply String.ext
    have hdata : (pre ++ "\x7b\x7b" ++ tok ++ "\x7d\x7d" ++ post).toList
        = pre.toList ++ '{' :: '{' :: (tok.toList
          ++ '}' :: '}' :: post.toList) := by
      show pre.data ++ ('{' :: '{' :: []) ++ tok.data ++ ('}' :: '}' :: [])
          ++ post.data = _
      simp [List.append_assoc]
    show rewriteScan (nsidOf id).toList key.toList.dropLast (keyLastChar key)
        (String.toList _).length (String.toList _) = _
    rw [hdata]
    rw [rewriteScan_nomatch (nsidOf id).toList key.toList.dropLast
      (keyLastChar key) hsafe pre.toList tok.toList post.toList hpre htok
      (fun j hj => hshape j hj)]
    show _ = pre.data ++ ('{' :: '{' :: []) ++ tok.data ++ ('}' :: '}' :: [])
        ++ rewriteScan (nsidOf id).toList key.toList.dropLast (keyLastChar key)
            post.toList.length post.toList
    simp [List.append_assoc]
  · intro body hbody
    rw [rewriteKey_eq_scan _ _ _ hne]
    apply String.ext
    show rewriteScan (nsidOf id).toList key.toList.dropLast (keyLastChar key)
        (String.toList _).length (String.toList _) = _
    exact rewriteScan_noop _ _ _ body.toList hbody

/-- Witness for `rewriteKey_namespacing`: the key `title` in the fragment
with id `modal`, in a body with a plain placeholder, a non-matching
placeholder and a brace-free tail. -/
theorem rewriteKey_namespacing_witness :
    rewriteKey (nsidOf "modal") "title"
        ("<h1>" ++ "\x7b\x7b" ++ "" ++ "title"
          ++ (⟨List.replicate 0 (keyLastChar "title")⟩ : String) ++ "\x7d\x7d"
          ++ "</h1>")
      = "<h1>" ++ "\x7b\x7b" ++ "" ++ nsidOf "modal" ++ "." ++ "title"
          ++ (⟨List.replicate 0 (keyLastChar "title")⟩ : String) ++ "\x7d\x7d"
          ++ rewriteKey (nsidOf "modal") "title" "</h1>" ∧
    rewriteKey (nsidOf "modal") "title" ("x" ++ "\x7b\x7b" ++ "other" ++ "\x7d\x7d" ++ "y")
      = "x" ++ "\x7b\x7b" ++ "other" ++ "\x7d\x7d"
          ++ rewriteKey (nsidOf "modal") "title" "y" ∧
    rewriteKey (nsidOf "modal") "title" "plain text" = "plain text" := by
  have h := rewriteKey_namespacing "modal" "title" (by decide)
  refine ⟨h.1 "<h1>" "" "</h1>" 0 (Or.inl rfl) (by decide),
    h.2.1 "x" "other" "y" (by decide) (by decide) ?_,
    h.2.2 "plain text" (by decide)⟩
  intro m hm
  have h1 : ("other".toList).head? = some 'o' := rfl
  have h2 : ("title".toList.dropLast
      ++ List.replicate (m + 1) (keyLastChar "title")).head? = some 't' := rfl
  rw [hm, h2] at h1
  cases h1

end FabAssemble
